import Mathlib

/-!
Verification of the SQL practice app's text-processing core against its
specification: the statement splitter (`parseSQL`), the schema sanitizer
(`cleanGeneratedDatabase`), the error locator (`parseErrorLocation`), the
database-session load path (`loadDatabaseIntoDatabase`), and the
`/generate-schema` HTTP handler.  All functions are shallowly embedded from
`src/index.js` (and the variant worker file) on `List Char`, with JavaScript
string semantics (trim, regex comment/fence removal, split on newline)
spelled out as executable Lean functions.
-/

set_option maxRecDepth 100000

namespace SqlApp

/-! ## JavaScript string primitives -/

/-- The ECMAScript whitespace set (WhiteSpace ∪ LineTerminator): what
`String.prototype.trim` removes and what the regex class `\s` matches. -/
def jsWhitespace : List Char :=
  [' ', '\t', '\n', '\r', '\x0b', '\x0c', '\u00A0', '\u1680',
   '\u2000', '\u2001', '\u2002', '\u2003', '\u2004', '\u2005', '\u2006',
   '\u2007', '\u2008', '\u2009', '\u200A', '\u2028', '\u2029', '\u202F',
   '\u205F', '\u3000', '\uFEFF']

/-- `\s` / trim test for one character. -/
def isWS (c : Char) : Bool := jsWhitespace.contains c

/-- Leading-whitespace removal (left half of `String.prototype.trim`). -/
def trimL (l : List Char) : List Char := l.dropWhile isWS

/-- Trailing-whitespace removal (right half of `String.prototype.trim`). -/
def trimR (l : List Char) : List Char := (l.reverse.dropWhile isWS).reverse

/-- JavaScript `String.prototype.trim`. -/
def trimChars (l : List Char) : List Char := trimR (trimL l)

/-- JavaScript `str.split('\n')`: always at least one piece, empty pieces kept. -/
def splitNL : List Char → List (List Char)
  | [] => [[]]
  | '\n' :: rest => [] :: splitNL rest
  | c :: rest =>
    match splitNL rest with
    | l :: ls => (c :: l) :: ls
    | [] => [[c]]

/-- JavaScript `lines.join('\n')`. -/
def joinNL : List (List Char) → List Char
  | [] => []
  | [l] => l
  | l :: ls => l ++ '\n' :: joinNL ls

/-- `pat` is a leading piece of `l` (character-exact). -/
def leadsWith : List Char → List Char → Bool
  | [], _ => true
  | _ :: _, [] => false
  | p :: ps, c :: cs => p == c && leadsWith ps cs

/-! ## The statement splitter `parseSQL` (src/index.js)

The JavaScript first removes line comments (regex `--.*$`, flags `gm`) and block comments
(`/\/\*[\s\S]*?\*\//g`), trims, then scans characters keeping a
single-quote flag, a double-quote flag and a parenthesis counter, splitting
at semicolons seen with both flags down and counter zero, and finally keeps
only statements that begin with a DDL/DML keyword. -/

/-- Line-comment removal, the regex `--.*$` (flags `gm`): from each `--` to the next
line terminator (`.` does not cross line terminators; `$` with the `m` flag
stops before each).  The `Bool` is the "currently inside a line comment"
mode. -/
def stripLC : Bool → List Char → List Char
  | _, [] => []
  | true, c :: rest =>
    if c = '\n' ∨ c = '\r' ∨ c = '\u2028' ∨ c = '\u2029' then
      c :: stripLC false rest
    else stripLC true rest
  | false, '-' :: '-' :: rest => stripLC true rest
  | false, c :: rest => c :: stripLC false rest

/-- Is `*/` somewhere in the list?  (Whether an opened block comment closes:
the lazy regex `/\/\*[\s\S]*?\*\//` matches only if it does.) -/
def hasCloseBC : List Char → Bool
  | '*' :: '/' :: _ => true
  | _ :: rest => hasCloseBC rest
  | [] => false

/-- Block-comment removal, the regex `/\/\*[\s\S]*?\*\//g`: from `/*` to the
first following `*/`; an unclosed `/*` is left in place (the regex then has
no match).  The `Bool` is the "currently inside a block comment" mode. -/
def stripBC : Bool → List Char → List Char
  | _, [] => []
  | true, '*' :: '/' :: rest => stripBC false rest
  | true, _ :: rest => stripBC true rest
  | false, '/' :: '*' :: rest =>
    if hasCloseBC rest then stripBC true rest
    else '/' :: '*' :: stripBC false rest
  | false, c :: rest => c :: stripBC false rest

/-- The scan state of `parseSQL`'s character loop: collected statements, the
current accumulator, the parenthesis counter (a JavaScript number — it can
go negative) and the two quote flags. -/
structure SplitState where
  stmts : List (List Char)
  cur : List Char
  depth : Int
  inSingle : Bool
  inDouble : Bool
deriving DecidableEq, Repr

/-- The starting state of the loop. -/
def initState : SplitState := ⟨[], [], 0, false, false⟩

/-- The quote-flag update of one loop iteration: a single quote toggles
`inSingle` when the previous character is no backslash and `inDouble` is
down; otherwise a double quote toggles `inDouble` when `inSingle` is down
(the `else if` of the source reads the untouched `inSingle`). -/
def quoteFlags (prev : Option Char) (c : Char) (s b : Bool) : Bool × Bool :=
  if c = '\'' ∧ prev ≠ some '\\' ∧ b = false then (!s, b)
  else if c = '"' ∧ prev ≠ some '\\' ∧ s = false then (s, !b)
  else (s, b)

/-- The parenthesis-counter update, evaluated on the already-updated quote
flags (as the source does). -/
def newDepth (c : Char) (s b : Bool) (d : Int) : Int :=
  if s = false ∧ b = false then
    if c = '(' then d + 1 else if c = ')' then d - 1 else d
  else d

/-- One iteration of `parseSQL`'s loop on character `c`, with `prev` the
previous character (`none` at position 0).  Order follows the source: quote
toggling, parenthesis counting outside quotes, appending the character, then
the end-of-statement test on the updated flags and counter. -/
def step (prev : Option Char) (c : Char) (st : SplitState) : SplitState :=
  let fl := quoteFlags prev c st.inSingle st.inDouble
  let d := newDepth c fl.1 fl.2 st.depth
  let cur := st.cur ++ [c]
  if c = ';' ∧ fl.1 = false ∧ fl.2 = false ∧ d = 0 then
    let t := trimChars cur
    if t ≠ [] ∧ ¬ t.all isWS then ⟨st.stmts ++ [t], [], d, fl.1, fl.2⟩
    else ⟨st.stmts, [], d, fl.1, fl.2⟩
  else ⟨st.stmts, cur, d, fl.1, fl.2⟩

/-- The character loop, threading the previous character. -/
def scanAux : Option Char → List Char → SplitState → SplitState
  | _, [], st => st
  | prev, c :: rest, st => scanAux (some c) rest (step prev c st)

/-- After the loop: a non-empty remainder becomes a final statement, with a
semicolon appended when it does not already end in one. -/
def finishScan (st : SplitState) : List (List Char) :=
  let t := trimChars st.cur
  if t ≠ [] ∧ ¬ t.all isWS then
    st.stmts ++ [t ++ (if t.getLast? = some ';' then [] else [';'])]
  else st.stmts

/-- The six DDL/DML leading keywords of the final filter (and of the
sanitizer's entry test), upper-cased. -/
def ddlKeywords : List (List Char) :=
  [['C', 'R', 'E', 'A', 'T', 'E'], ['I', 'N', 'S', 'E', 'R', 'T'],
   ['U', 'P', 'D', 'A', 'T', 'E'], ['D', 'E', 'L', 'E', 'T', 'E'],
   ['D', 'R', 'O', 'P'], ['A', 'L', 'T', 'E', 'R']]

/-- The regex `/^(CREATE|INSERT|UPDATE|DELETE|DROP|ALTER)/i`. -/
def startsWithKeyword (l : List Char) : Bool :=
  ddlKeywords.any (fun k => leadsWith k (l.map Char.toUpper))

/-- The regex `/^-+\s*$/`: one or more dashes then only whitespace. -/
def isDashLine (l : List Char) : Bool :=
  match l with
  | c :: _ => c == '-' && (l.dropWhile (fun x => x == '-')).all isWS
  | [] => false

/-- The final filter of `parseSQL`: keep non-empty, non-blank, non-dash-run
statements beginning with a DDL/DML keyword. -/
def keepStmt (stmt : List Char) : Bool :=
  let cleaned := trimChars stmt
  decide (cleaned ≠ []) && !(cleaned.all isWS) && !(isDashLine cleaned) &&
    startsWithKeyword cleaned

/-- `parseSQL` from src/index.js, on character lists. -/
def parseSQLChars (sql : List Char) : List (List Char) :=
  let cleanSQL := trimChars (stripBC false (stripLC false sql))
  (finishScan (scanAux none cleanSQL initState)).filter keepStmt

/-- `parseSQL` on Lean strings. -/
def parseSQL (sql : String) : List String :=
  (parseSQLChars sql.data).map (fun l => ⟨l⟩)

example : parseSQL "CREATE TABLE t (x);" = ["CREATE TABLE t (x);"] := by decide
example : parseSQL "SELECT 1;" = [] := by decide
example :
    parseSQL "INSERT INTO t VALUES ('a;b');" = ["INSERT INTO t VALUES ('a;b');"] := by
  decide
example :
    parseSQL "CREATE TABLE a (x);\nINSERT INTO a VALUES (1)" =
      ["CREATE TABLE a (x);", "INSERT INTO a VALUES (1);"] := by decide
example : parseSQL "-- note\nDROP TABLE x;" = ["DROP TABLE x;"] := by decide

/-! ## The schema sanitizer `cleanGeneratedDatabase` (src/index.js)

The JavaScript removes markdown fence markers (regex ` ```sql\s* `, flags
`gi`, then ` ```\s* `, flag `g`), trims, and then walks the lines, entering
"SQL mode" at the first line whose trimmed form starts with a DDL/DML
keyword or with `--`; once entered every line is kept, before entry
non-SQL lines are dropped. -/

/-- The backtick character (written by code point to keep source plain). -/
def backTick : Char := Char.ofNat 96

/-- Removal of ` ```sql ` fence markers with their trailing whitespace, the
regex ` ```sql\s* ` with flags `gi` (case-insensitive only in the letters).
The `Bool` is "currently consuming the `\s*` tail of a match"; a character
that ends that consumption is re-examined as a possible new match start,
as the regex engine does after a global-flag match. -/
def stripSF : Bool → List Char → List Char
  | _, [] => []
  | skip, c0 :: c1 :: c2 :: c3 :: c4 :: c5 :: rest =>
    if skip && isWS c0 then stripSF true (c1 :: c2 :: c3 :: c4 :: c5 :: rest)
    else if c0 = backTick ∧ c1 = backTick ∧ c2 = backTick ∧
        Char.toLower c3 = 's' ∧ Char.toLower c4 = 'q' ∧ Char.toLower c5 = 'l' then
      stripSF true rest
    else c0 :: stripSF false (c1 :: c2 :: c3 :: c4 :: c5 :: rest)
  | skip, c :: rest =>
    if skip && isWS c then stripSF true rest else c :: stripSF false rest

/-- Removal of plain ` ``` ` fence markers with their trailing whitespace,
the regex ` ```\s* ` with flag `g`, same mode convention as `stripSF`. -/
def stripPF : Bool → List Char → List Char
  | _, [] => []
  | skip, c0 :: c1 :: c2 :: rest =>
    if skip && isWS c0 then stripPF true (c1 :: c2 :: rest)
    else if c0 = backTick ∧ c1 = backTick ∧ c2 = backTick then stripPF true rest
    else c0 :: stripPF false (c1 :: c2 :: rest)
  | skip, c :: rest =>
    if skip && isWS c then stripPF true rest else c :: stripPF false rest

/-- JavaScript `trimmedLine.startsWith('--')`. -/
def startsWithDashes : List Char → Bool
  | '-' :: '-' :: _ => true
  | _ => false

/-- The regex `^(CREATE|INSERT|UPDATE|DELETE|DROP|ALTER|--)` with flag `i`
(the test of the sanitizer's third branch). -/
def startsWithKeywordOrDashes (l : List Char) : Bool :=
  startsWithKeyword l || startsWithDashes l

/-- The line loop of `cleanGeneratedDatabase`, with the exact branch
structure of the source: skip blank lines before entry; keep a line and
enter SQL mode on a keyword/`--` start (or keep it when already entered);
the source's second `else if` (in SQL mode with a semicolon or blank) is
unreachable because the first branch already fires in SQL mode, and its
final `else if` skips the line, as does falling through every branch. -/
def cleanLoop : Bool → List (List Char) → List (List Char)
  | _, [] => []
  | inSQL, line :: rest =>
    let t := trimChars line
    if inSQL = false ∧ t = [] then cleanLoop inSQL rest
    else if startsWithKeyword t || startsWithDashes t || inSQL then
      line :: cleanLoop true rest
    else if inSQL && (t.contains ';' || t == []) then
      line :: cleanLoop inSQL rest
    else if !(startsWithKeywordOrDashes t) && !inSQL then
      cleanLoop inSQL rest
    else
      cleanLoop inSQL rest

/-- `cleanGeneratedDatabase` from src/index.js, on character lists. -/
def cleanGeneratedDatabase (database : List Char) : List Char :=
  let cleaned := trimChars (stripPF false (stripSF false database))
  let lines := splitNL cleaned
  trimChars (joinNL (cleanLoop false lines))

/-- `cleanGeneratedDatabase` on Lean strings. -/
def cleanGeneratedDatabaseStr (database : String) : String :=
  ⟨cleanGeneratedDatabase database.data⟩

/-- Substring occurrence test: does `pat` start at some position of the
list? -/
def containsAt (pat : List Char) : List Char → Bool
  | [] => leadsWith pat []
  | c :: rest => leadsWith pat (c :: rest) || containsAt pat rest

/-- Does the text contain one of the six SQL keywords anywhere,
case-insensitively?  (The spec's "recognizable SQL keyword", used to state
the sanitizer's degenerate case.) -/
def containsKeywordSub (l : List Char) : Bool :=
  ddlKeywords.any (fun k => containsAt k (l.map Char.toUpper))

example :
    cleanGeneratedDatabaseStr
        "Here is your schema:\n```sql\nCREATE TABLE t (x);\n```" =
      "CREATE TABLE t (x);" := by decide
example : cleanGeneratedDatabaseStr "no sql here at all" = "" := by decide
example : cleanGeneratedDatabaseStr "-- note" = "-- note" := by decide

/-! ## The error locator `parseErrorLocation` (worker variant file)

The function body sits inside the page's JavaScript template literal, so
its regex literals are cooked by string-escape processing before the
browser parses them: the two-character sequence backslash-w is the
NonEscapeCharacter escape and cooks to the plain letter `w`.  The four
deployed patterns, tried in order, are therefore `near "X": rest` (`X`
the maximal non-quote run), `no such table: (w+)` and
`no such column: (w+)` (the capture a non-empty run of the letters
`w`/`W` — not a word), then the generic `syntax error` (whole match as
token); the token is then searched for, case-insensitively, line by line
in the query. -/

/-- A character matched by the deployed capture `(w+)` under flag `i`:
the letter `w` in either case (the source text's backslash-w cooks to
`w` inside the template literal). -/
def isCookedW (c : Char) : Bool :=
  c = 'w' ∨ c = 'W'

/-- JavaScript regex line terminators (what `.` refuses to match). -/
def lineTerm (c : Char) : Bool :=
  c = '\n' ∨ c = '\r' ∨ c = '\u2028' ∨ c = '\u2029'

/-- Lower-cased copy, JavaScript `toLowerCase` in the ASCII range. -/
def lowerList (l : List Char) : List Char := l.map Char.toLower

/-- One attempt of the pattern `near "([^"]+)": (.+)` (flag `i`) at the
start of `l`: the literal `near "`, a non-empty run of non-quote
characters, then `": ` and at least one non-line-terminator character. -/
def matchNearAt (l : List Char) : Option (List Char) :=
  if leadsWith (String.data "near \"") (lowerList l) then
    let rest := l.drop 6
    let tok := rest.takeWhile (fun c => !(c == '"'))
    match rest.drop tok.length, tok with
    | '"' :: ':' :: ' ' :: d :: _, _ :: _ =>
      if lineTerm d then none else some tok
    | _, _ => none
  else none

/-- The first position where the `near "..."` pattern matches. -/
def findNear : List Char → Option (List Char)
  | [] => none
  | c :: rest =>
    match matchNearAt (c :: rest) with
    | some tok => some tok
    | none => findNear rest

/-- The first match of a deployed pattern `lit(w+)` with flag `i`: the
literal `lit`, case-insensitively, followed by a non-empty run of the
letters `w`/`W` (the capture, as cooked inside the template literal). -/
def findLitW (lit : List Char) : List Char → Option (List Char)
  | [] => none
  | c :: rest =>
    if leadsWith lit (lowerList (c :: rest)) then
      let tok := ((c :: rest).drop lit.length).takeWhile isCookedW
      if tok = [] then findLitW lit rest else some tok
    else findLitW lit rest

/-- The first match of the generic `syntax error` pattern (flag `i`),
returned as it appears in the message (the whole match, `match[0]`). -/
def findGenericErr : List Char → Option (List Char)
  | [] => none
  | c :: rest =>
    if leadsWith (String.data "syntax error") (lowerList (c :: rest)) then
      some ((c :: rest).take 12)
    else findGenericErr rest

/-- `matchedText` of `parseErrorLocation`: the deployed (cooked) patterns
in source order. -/
def extractToken (msg : List Char) : Option (List Char) :=
  match findNear msg with
  | some t => some t
  | none =>
    match findLitW (String.data "no such table: ") msg with
    | some t => some t
    | none =>
      match findLitW (String.data "no such column: ") msg with
      | some t => some t
      | none => findGenericErr msg

/-- JavaScript `hay.toLowerCase().indexOf(needle.toLowerCase())`. -/
def idxOfCI (needle : List Char) : List Char → Option Nat
  | [] => if leadsWith (lowerList needle) [] then some 0 else none
  | c :: rest =>
    if leadsWith (lowerList needle) (lowerList (c :: rest)) then some 0
    else
      match idxOfCI needle rest with
      | some i => some (i + 1)
      | none => none

/-- The result record of `parseErrorLocation`. -/
structure ErrorInfo where
  line : Option Nat
  column : Option Nat
  context : Option (List Char)
  parsedMessage : List Char
deriving DecidableEq, Repr

/-- The line loop: first line containing the token, 1-based line and
column, trimmed line as context. -/
def locateLines (tok : List Char) : Nat → List (List Char) → Option (Nat × Nat × List Char)
  | _, [] => none
  | i, line :: rest =>
    match idxOfCI tok line with
    | some idx => some (i + 1, idx + 1, trimChars line)
    | none => locateLines tok (i + 1) rest

/-- `parseErrorLocation` from the worker variant file. -/
def parseErrorLocation (errorMessage query : List Char) : ErrorInfo :=
  match extractToken errorMessage with
  | none => ⟨none, none, none, errorMessage⟩
  | some tok =>
    if query = [] then ⟨none, none, none, errorMessage⟩
    else
      match locateLines tok 0 (splitNL query) with
      | some (ln, col, ctx) => ⟨some ln, some col, some ctx, errorMessage⟩
      | none => ⟨none, none, none, errorMessage⟩

example :
    extractToken (String.data "no such table: widgets") =
      some (String.data "w") := by decide
example :
    (parseErrorLocation (String.data "no such table: orders")
        (String.data "SELECT *\nFROM orders")).line = none := by decide
example :
    (parseErrorLocation (String.data "near \"FROM\": syntax error")
        (String.data "SELECT a\nFROM")).line = some 2 := by decide

/-! ## The database session (src/index.js `loadDatabaseIntoDatabase`)

The embedded sql.js engine is third-party code; its visible state is
modelled from the spec and the SQLite documentation as the list of table
names, on which the session's calls act: the
`SELECT name FROM sqlite_master ... NOT LIKE 'sqlite_%'` listing filters
out reserved names (`LIKE` is case-insensitive and `_` matches any single
character), `DROP TABLE IF EXISTS` removes a name, a successful
`CREATE TABLE` appends one (failing on a duplicate), and other statements
leave the table set unchanged. -/

/-- Modelled from the spec: a table name the engine reserves — one that
matches `LIKE 'sqlite_%'` (six letters `sqlite` case-insensitively, then at
least one character). -/
def isReservedName (n : List Char) : Bool :=
  decide (7 ≤ n.length) && ((n.take 6).map Char.toLower == String.data "sqlite")

/-- Modelled from the spec: a schema statement as the engine's table set
sees it — a table creation or anything else. -/
inductive SqlStmt where
  | createTable (name : List Char)
  | otherStmt
deriving DecidableEq, Repr

/-- The `sqlite_master` listing of the session's user tables. -/
def userTables (db : List (List Char)) : List (List Char) :=
  db.filter (fun n => !(isReservedName n))

/-- Modelled from the spec: `DROP TABLE IF EXISTS n`. -/
def dropTable (db : List (List Char)) (n : List Char) : List (List Char) :=
  db.filter (fun m => !(m == n))

/-- The clearing loop of `loadDatabaseIntoDatabase`: list the user tables,
then drop each. -/
def clearExistingTables (db : List (List Char)) : List (List Char) :=
  (userTables db).foldl dropTable db

/-- Modelled from the spec: running one statement against the table set.
A duplicate `CREATE TABLE` fails and leaves the set unchanged. -/
def applyStmt (db : List (List Char)) : SqlStmt → List (List Char)
  | .createTable n => if db.contains n then db else db ++ [n]
  | .otherStmt => db

/-- `loadDatabaseIntoDatabase` from src/index.js, as it acts on the table
set: clear the existing user tables, then run each statement in order
(failures do not stop the loop). -/
def loadDatabaseIntoDatabase (db : List (List Char)) (stmts : List SqlStmt) :
    List (List Char) :=
  stmts.foldl applyStmt (clearExistingTables db)

/-- The table names the statement list tries to create. -/
def createNames (stmts : List SqlStmt) : List (List Char) :=
  stmts.filterMap (fun s =>
    match s with
    | .createTable n => some n
    | .otherStmt => none)

/-- The statement loop of `loadDatabaseIntoDatabase`, abstracted over the
engine's execute primitive `exec` (`none` = the engine threw): each
statement is trimmed, empty ones are skipped, a success bumps
`successCount`, a failure bumps `errorCount` and keeps the previous state,
and the loop always continues. -/
def runStep {Db : Type} (exec : List Char → Db → Option Db)
    (acc : Db × Nat × Nat) (stmtRaw : List Char) : Db × Nat × Nat :=
  let stmt := trimChars stmtRaw
  if stmt = [] then acc
  else
    match exec stmt acc.1 with
    | some db2 => (db2, acc.2.1 + 1, acc.2.2)
    | none => (acc.1, acc.2.1, acc.2.2 + 1)

def runStatements {Db : Type} (exec : List Char → Db → Option Db) (db : Db)
    (stmts : List (List Char)) : Db × Nat × Nat :=
  stmts.foldl (runStep exec) (db, 0, 0)

/-! ## The `/generate-schema` HTTP handler (src/index.js and the worker
variant) -/

/-- The hardcoded fallback schema, `generateFallbackSchema` from
src/index.js. -/
def generateFallbackSchema (prompt : String) : String :=
  "-- Fallback SQL Database for: " ++ prompt ++ "
-- Note: This is a simplified database created when the AI service is unavailable

CREATE TABLE customers (
  id INTEGER PRIMARY KEY AUTOINCREMENT,
  name TEXT NOT NULL,
  email TEXT UNIQUE NOT NULL,
  created_at DATETIME DEFAULT CURRENT_TIMESTAMP
);

CREATE TABLE orders (
  id INTEGER PRIMARY KEY AUTOINCREMENT,
  customer_id INTEGER NOT NULL,
  total DECIMAL(10,2) NOT NULL,
  status TEXT DEFAULT 'pending',
  created_at DATETIME DEFAULT CURRENT_TIMESTAMP,
  FOREIGN KEY (customer_id) REFERENCES customers(id)
);

-- Sample data
INSERT INTO customers (id, name, email) VALUES
(1, 'John Smith', 'john@example.com'),
(2, 'Emma Johnson', 'emma@example.com'),
(3, 'Michael Brown', 'michael@example.com');

INSERT INTO orders (id, customer_id, total, status) VALUES
(1001, 1, 129.99, 'completed'),
(1002, 1, 249.95, 'completed'),
(1003, 2, 67.50, 'processing'),
(1004, 3, 89.99, 'processing'),
(1005, 2, 67.50, 'completed');"

/-- What came back from the provider call: a well-formed success, a 2xx
body without `content[0].text`, a non-2xx status with its error body, or a
rejected fetch. -/
inductive ProviderOutcome where
  | ok (text : String)
  | malformed
  | httpFail (status : Nat) (body : String)
  | netFail (msg : String)
deriving DecidableEq, Repr

/-- The provider call did not produce usable text (everything except
`ok`). -/
def isProviderFailure : ProviderOutcome → Bool
  | .ok _ => false
  | _ => true

/-- The JSON body and status the handler responds with. -/
structure GenResponse where
  status : Nat
  database : Option String
  source : Option String
  error : Option String
deriving DecidableEq, Repr

/-- The `switch (claudeResponse.status)` error-message table of the
handler. -/
def apiErrorMessage (status : Nat) (body : String) : String :=
  if status = 401 then "Authentication failed - API key may be invalid"
  else if status = 429 then "Rate limit exceeded - please try again later"
  else if status = 500 then "Claude API service error"
  else "API error (" ++ toString status ++ "): " ++ body

/-- The `POST /generate-schema` handler from src/index.js, after JSON
parsing: an empty (falsy) prompt is a 400; a missing key answers 200 with
the fallback schema and an error note; with a key, a provider success is
passed through as `claude-api`, and every provider failure (non-2xx,
malformed body, network throw) is caught and answered 200 with the
fallback schema, `source: fallback` and the error message. -/
def generateSchemaHandler (hasKey : Bool) (prompt : String)
    (outcome : ProviderOutcome) : GenResponse :=
  if prompt = "" then ⟨400, none, none, some "Prompt is required"⟩
  else if hasKey = false then
    ⟨200, some (generateFallbackSchema prompt), some "fallback",
      some "Claude API key not configured"⟩
  else
    match outcome with
    | .ok text => ⟨200, some text, some "claude-api", none⟩
    | .malformed =>
      ⟨200, some (generateFallbackSchema prompt), some "fallback",
        some "API call failed: Invalid response structure from Claude API"⟩
    | .httpFail status body =>
      ⟨200, some (generateFallbackSchema prompt), some "fallback",
        some ("API call failed: " ++ apiErrorMessage status body)⟩
    | .netFail msg =>
      ⟨200, some (generateFallbackSchema prompt), some "fallback",
        some ("API call failed: " ++ msg)⟩

/-! ## Supporting lemmas -/

theorem foldl_dropTable (L : List (List Char)) :
    ∀ db : List (List Char),
      L.foldl dropTable db = db.filter (fun m => !(L.contains m)) := by
  induction L with
  | nil => intro db; simp [List.filter_eq_self]
  | cons x L ih =>
    intro db
    rw [List.foldl_cons, dropTable, ih, List.filter_filter]
    congr 1
    funext m
    rw [List.contains_cons, Bool.not_or, Bool.and_comm]

theorem userTables_clearExistingTables (db : List (List Char)) :
    userTables (clearExistingTables db) = [] := by
  rw [clearExistingTables, foldl_dropTable, userTables, List.filter_filter,
    List.filter_eq_nil_iff]
  intro a ha hcontra
  rw [Bool.and_eq_true] at hcontra
  have hmem : a ∈ userTables db := List.mem_filter.2 ⟨ha, hcontra.1⟩
  have h2 := hcontra.2
  simp [List.elem_eq_mem, hmem] at h2

theorem userTables_append_one (db : List (List Char)) (n : List Char) :
    userTables (db ++ [n]) =
      userTables db ++ (if isReservedName n then [] else [n]) := by
  rw [userTables, List.filter_append, userTables]
  congr 1
  by_cases h : isReservedName n <;> simp [h]

theorem userTables_applyStmt_congr (s : SqlStmt) (d1 d2 : List (List Char))
    (h : userTables d1 = userTables d2) :
    userTables (applyStmt d1 s) = userTables (applyStmt d2 s) := by
  cases s with
  | otherStmt => exact h
  | createTable n =>
    by_cases hr : isReservedName n = true
    · have e1 : userTables (applyStmt d1 (.createTable n)) = userTables d1 := by
        rw [applyStmt]
        split
        · rfl
        · rw [userTables_append_one, hr]; simp
      have e2 : userTables (applyStmt d2 (.createTable n)) = userTables d2 := by
        rw [applyStmt]
        split
        · rfl
        · rw [userTables_append_one, hr]; simp
      rw [e1, e2, h]
    · have hmem : d1.contains n = d2.contains n := by
        have m1 : n ∈ d1 ↔ n ∈ userTables d1 := by
          rw [userTables]
          simp [List.mem_filter, hr]
        have m2 : n ∈ d2 ↔ n ∈ userTables d2 := by
          rw [userTables]
          simp [List.mem_filter, hr]
        rw [show d1.contains n = decide (n ∈ d1) from List.elem_eq_mem n d1,
          show d2.contains n = decide (n ∈ d2) from List.elem_eq_mem n d2,
          decide_eq_decide]
        rw [m1, m2, h]
      rw [applyStmt, applyStmt, hmem]
      split
      · exact h
      · rw [userTables_append_one, userTables_append_one, h]

theorem userTables_foldl_applyStmt (stmts : List SqlStmt) :
    ∀ d1 d2 : List (List Char), userTables d1 = userTables d2 →
      userTables (stmts.foldl applyStmt d1) =
        userTables (stmts.foldl applyStmt d2) := by
  induction stmts with
  | nil => intro d1 d2 h; simpa using h
  | cons s rest ih =>
    intro d1 d2 h
    rw [List.foldl_cons, List.foldl_cons]
    exact ih _ _ (userTables_applyStmt_congr s d1 d2 h)

theorem mem_foldl_applyStmt (stmts : List SqlStmt) :
    ∀ (d : List (List Char)) (n : List Char),
      n ∈ stmts.foldl applyStmt d → n ∈ d ∨ n ∈ createNames stmts := by
  induction stmts with
  | nil => intro d n h; exact Or.inl (by simpa using h)
  | cons s rest ih =>
    intro d n h
    rw [List.foldl_cons] at h
    rcases ih _ n h with h1 | h1
    · cases s with
      | otherStmt => exact Or.inl h1
      | createTable m =>
        rw [applyStmt] at h1
        split at h1
        · exact Or.inl h1
        · rcases List.mem_append.1 h1 with h2 | h2
          · exact Or.inl h2
          · refine Or.inr ?_
            simp only [createNames, List.filterMap_cons]
            simp only [List.mem_cons]
            exact Or.inl (by simpa using h2)
    · refine Or.inr ?_
      cases s with
      | otherStmt => simpa [createNames, List.filterMap_cons] using h1
      | createTable m =>
        simp only [createNames, List.filterMap_cons] at h1 ⊢
        exact List.mem_cons_of_mem _ h1

theorem runStatements_offset {Db : Type} (exec : List Char → Db → Option Db)
    (stmts : List (List Char)) :
    ∀ (d : Db) (sc ec : Nat),
      stmts.foldl (runStep exec) (d, sc, ec) =
        ((stmts.foldl (runStep exec) (d, 0, 0)).1,
         sc + (stmts.foldl (runStep exec) (d, 0, 0)).2.1,
         ec + (stmts.foldl (runStep exec) (d, 0, 0)).2.2) := by
  induction stmts with
  | nil => intro d sc ec; simp
  | cons x rest ih =>
    intro d sc ec
    rw [List.foldl_cons, List.foldl_cons]
    by_cases hx : trimChars x = []
    · rw [show runStep exec (d, sc, ec) x = (d, sc, ec) from by
        simp [runStep, hx]]
      rw [show runStep exec (d, 0, 0) x = (d, 0, 0) from by
        simp [runStep, hx]]
      exact ih d sc ec
    · rcases he : exec (trimChars x) d with _ | db2
      · rw [show runStep exec (d, sc, ec) x = (d, sc, ec + 1) from by
          simp [runStep, hx, he]]
        rw [show runStep exec (d, 0, 0) x = (d, 0, 0 + 1) from by
          simp [runStep, hx, he]]
        rw [ih d sc (ec + 1), ih d 0 (0 + 1)]
        simp
        try omega
      · rw [show runStep exec (d, sc, ec) x = (db2, sc + 1, ec) from by
          simp [runStep, hx, he]]
        rw [show runStep exec (d, 0, 0) x = (db2, 0 + 1, 0) from by
          simp [runStep, hx, he]]
        rw [ih db2 (sc + 1) ec, ih db2 (0 + 1) 0]
        simp
        try omega

/-! ## Claim theorems: session and handler -/

/-- Claim C5 (confirmed): loading a new schema first drops every existing
user table (names not matching the engine's reserved `sqlite_` pattern), so
after a load the user tables are independent of the previous contents —
identical to loading into an empty session — and every resulting user
table is one the newly loaded statements created: a full reset, never a
merge. -/
theorem loadDatabase_full_reset (db : List (List Char)) (stmts : List SqlStmt) :
    userTables (clearExistingTables db) = [] ∧
    userTables (loadDatabaseIntoDatabase db stmts) =
      userTables (loadDatabaseIntoDatabase [] stmts) ∧
    ∀ n, n ∈ userTables (loadDatabaseIntoDatabase db stmts) →
      n ∈ createNames stmts := by
  refine ⟨userTables_clearExistingTables db, ?_, ?_⟩
  · rw [loadDatabaseIntoDatabase, loadDatabaseIntoDatabase]
    refine userTables_foldl_applyStmt stmts _ _ ?_
    rw [userTables_clearExistingTables, userTables_clearExistingTables]
  · intro n hn
    have hn1 : n ∈ loadDatabaseIntoDatabase db stmts := (List.mem_filter.1 hn).1
    have hres : (! isReservedName n) = true := (List.mem_filter.1 hn).2
    rw [loadDatabaseIntoDatabase] at hn1
    rcases mem_foldl_applyStmt stmts _ n hn1 with h1 | h1
    · exfalso
      have hm : n ∈ userTables (clearExistingTables db) :=
        List.mem_filter.2 ⟨h1, hres⟩
      rw [userTables_clearExistingTables] at hm
      simp at hm
    · exact h1

theorem loadDatabase_full_reset_witness :
    ['t'] ∈
      userTables (loadDatabaseIntoDatabase [['o', 'l', 'd']]
        [SqlStmt.createTable ['t']]) ∧
    ['t'] ∈ createNames [SqlStmt.createTable ['t']] :=
  ⟨by decide,
    (loadDatabase_full_reset [['o', 'l', 'd']] [SqlStmt.createTable ['t']]).2.2
      ['t'] (by decide)⟩

/-- Claim C6 (confirmed): the load loop applies each statement
independently — when one statement fails at the state it reaches, the
database result and the success count are exactly those of the run without
it and the error count is one higher, so a failure never prevents the
application of any later statement and per-statement counts are recorded
without aborting. -/
theorem runStatements_failure_isolated {Db : Type}
    (exec : List Char → Db → Option Db) (init : Db)
    (xs ys : List (List Char)) (bad : List Char)
    (hbad : trimChars bad ≠ [])
    (hfail : exec (trimChars bad) (runStatements exec init xs).1 = none) :
    runStatements exec init (xs ++ bad :: ys) =
      ((runStatements exec init (xs ++ ys)).1,
       (runStatements exec init (xs ++ ys)).2.1,
       (runStatements exec init (xs ++ ys)).2.2 + 1) := by
  rw [runStatements] at hfail
  rw [runStatements, runStatements, List.foldl_append, List.foldl_append,
    List.foldl_cons]
  have hstep : runStep exec (xs.foldl (runStep exec) (init, 0, 0)) bad =
      ((xs.foldl (runStep exec) (init, 0, 0)).1,
       (xs.foldl (runStep exec) (init, 0, 0)).2.1,
       (xs.foldl (runStep exec) (init, 0, 0)).2.2 + 1) := by
    simp only [runStep]
    rw [if_neg hbad, hfail]
  rw [hstep]
  have e1 := runStatements_offset exec ys
    (xs.foldl (runStep exec) (init, 0, 0)).1
    (xs.foldl (runStep exec) (init, 0, 0)).2.1
    ((xs.foldl (runStep exec) (init, 0, 0)).2.2 + 1)
  have e2 := runStatements_offset exec ys
    (xs.foldl (runStep exec) (init, 0, 0)).1
    (xs.foldl (runStep exec) (init, 0, 0)).2.1
    (xs.foldl (runStep exec) (init, 0, 0)).2.2
  rw [e1]
  rw [show xs.foldl (runStep exec) (init, 0, 0) =
    ((xs.foldl (runStep exec) (init, 0, 0)).1,
     (xs.foldl (runStep exec) (init, 0, 0)).2.1,
     (xs.foldl (runStep exec) (init, 0, 0)).2.2) from rfl, e2]
  simp
  try omega

theorem runStatements_failure_isolated_witness :
    (trimChars ['X'] ≠ [] ∧
      (fun (s : List Char) (n : Nat) =>
          if s = ['X'] then none else some (n + 1)) (trimChars ['X'])
        (runStatements
          (fun (s : List Char) (n : Nat) =>
            if s = ['X'] then none else some (n + 1)) 0 [['C']]).1 = none) ∧
    runStatements
        (fun (s : List Char) (n : Nat) =>
          if s = ['X'] then none else some (n + 1)) 0
        ([['C']] ++ ['X'] :: [['D']]) =
      ((runStatements
          (fun (s : List Char) (n : Nat) =>
            if s = ['X'] then none else some (n + 1)) 0 ([['C']] ++ [['D']])).1,
       (runStatements
          (fun (s : List Char) (n : Nat) =>
            if s = ['X'] then none else some (n + 1)) 0
          ([['C']] ++ [['D']])).2.1,
       (runStatements
          (fun (s : List Char) (n : Nat) =>
            if s = ['X'] then none else some (n + 1)) 0
          ([['C']] ++ [['D']])).2.2 + 1) :=
  ⟨⟨by decide, by decide⟩,
    runStatements_failure_isolated _ 0 [['C']] [['D']] ['X'] (by decide)
      (by decide)⟩

/-- Claim C7 (confirmed): for every non-empty prompt, a missing provider
credential or any provider failure (non-2xx status, malformed body,
network error) is answered with HTTP status 200 carrying source
`fallback`, the fixed fallback schema and a non-null error field — never a
hard failure to the caller. -/
theorem generateSchema_fallback_on_failure (hasKey : Bool) (prompt : String)
    (outcome : ProviderOutcome) (hp : prompt ≠ "")
    (hfail : hasKey = false ∨ isProviderFailure outcome = true) :
    (generateSchemaHandler hasKey prompt outcome).status = 200 ∧
    (generateSchemaHandler hasKey prompt outcome).source = some "fallback" ∧
    (generateSchemaHandler hasKey prompt outcome).database =
      some (generateFallbackSchema prompt) ∧
    (generateSchemaHandler hasKey prompt outcome).error ≠ none := by
  cases hasKey <;> cases outcome <;>
    simp_all [generateSchemaHandler, isProviderFailure]

theorem generateSchema_fallback_on_failure_witness :
    (("retail store" : String) ≠ "" ∧
      isProviderFailure (ProviderOutcome.httpFail 429 "overloaded") = true) ∧
    (generateSchemaHandler true "retail store"
        (ProviderOutcome.httpFail 429 "overloaded")).status = 200 ∧
    (generateSchemaHandler true "retail store"
        (ProviderOutcome.httpFail 429 "overloaded")).source = some "fallback" ∧
    (generateSchemaHandler true "retail store"
        (ProviderOutcome.httpFail 429 "overloaded")).database =
      some (generateFallbackSchema "retail store") ∧
    (generateSchemaHandler true "retail store"
        (ProviderOutcome.httpFail 429 "overloaded")).error ≠ none :=
  ⟨⟨by decide, rfl⟩,
    generateSchema_fallback_on_failure true "retail store"
      (ProviderOutcome.httpFail 429 "overloaded") (by decide) (Or.inr rfl)⟩

/-- Claim C4 (confirmed): every statement in `parseSQL`'s output begins,
after trimming, with one of CREATE, INSERT, UPDATE, DELETE, DROP or ALTER
(case-insensitive) — so statements without such a start (`SELECT`,
`PRAGMA`, `BEGIN`, comment-only fragments) are excluded even when present
in the input, as the concrete run on a `SELECT`+`PRAGMA`+`CREATE` input
shows. -/
theorem parseSQL_keyword_filter :
    (∀ (sql e : List Char), e ∈ parseSQLChars sql →
      startsWithKeyword (trimChars e) = true) ∧
    parseSQL "SELECT 1; PRAGMA p; CREATE TABLE t (x);" =
      ["CREATE TABLE t (x);"] := by
  constructor
  · intro sql e he
    rw [parseSQLChars] at he
    have h := (List.mem_filter.1 he).2
    simp only [keepStmt, Bool.and_eq_true] at h
    exact h.2
  · decide

theorem parseSQL_keyword_filter_witness :
    String.data "CREATE TABLE t (x);" ∈
      parseSQLChars (String.data "SELECT 1; CREATE TABLE t (x);") ∧
    startsWithKeyword (trimChars (String.data "CREATE TABLE t (x);")) = true :=
  ⟨by decide,
    parseSQL_keyword_filter.1 (String.data "SELECT 1; CREATE TABLE t (x);")
      (String.data "CREATE TABLE t (x);") (by decide)⟩

/-! ## Splitter lemmas: small utilities -/

theorem dropWhile_pred_head (p : Char → Bool) :
    ∀ (l : List Char) (c : Char) (cs : List Char),
      l.dropWhile p = c :: cs → p c = false := by
  intro l
  induction l with
  | nil => intro c cs h; simp at h
  | cons x xs ih =>
    intro c cs h
    rw [List.dropWhile_cons] at h
    by_cases hx : p x = true
    · rw [if_pos hx] at h
      exact ih c cs h
    · rw [if_neg hx] at h
      cases h
      simpa using hx

theorem dropWhile_idem (p : Char → Bool) (l : List Char) :
    (l.dropWhile p).dropWhile p = l.dropWhile p := by
  rcases h : l.dropWhile p with _ | ⟨c, cs⟩
  · simp
  · rw [List.dropWhile_cons, if_neg]
    simp [dropWhile_pred_head p l c cs h]

theorem trimL_cons_not_ws (c : Char) (cs : List Char) (h : isWS c = false) :
    trimL (c :: cs) = c :: cs := by
  rw [trimL, List.dropWhile_cons, if_neg]
  simp [h]

theorem trimL_idem (l : List Char) : trimL (trimL l) = trimL l :=
  dropWhile_idem isWS l

theorem trimR_idem (l : List Char) : trimR (trimR l) = trimR l := by
  rw [trimR, trimR, List.reverse_reverse, dropWhile_idem]

theorem trimR_append_not_ws (x : List Char) (c : Char) (h : isWS c = false) :
    trimR (x ++ [c]) = x ++ [c] := by
  rw [trimR, List.reverse_append, List.reverse_singleton, List.singleton_append,
    List.dropWhile_cons, if_neg (by simp [h]), List.reverse_cons,
    List.reverse_reverse]

theorem trimL_append (t x : List Char) :
    trimL (t ++ x) = if trimL t = [] then trimL x else trimL t ++ x := by
  rw [trimL, List.dropWhile_append]
  rcases h : t.dropWhile isWS with _ | ⟨c, cs⟩ <;> simp [trimL, h]

theorem trim_append_semi (t : List Char) :
    trimChars (t ++ [';']) = trimL t ++ [';'] := by
  rw [trimChars, trimL_append]
  by_cases h : trimL t = []
  · rw [if_pos h, h, trimL_cons_not_ws ';' [] (by decide)]
    rw [show trimR [';'] = ([] : List Char) ++ [';'] from
      trimR_append_not_ws [] ';' (by decide)]
  · rw [if_neg h, trimR_append_not_ws _ ';' (by decide)]

theorem trim_cons_ends_semi (c : Char) (cs : List Char) (hc : isWS c = false)
    (h : ∃ x, c :: cs = x ++ [';']) : trimChars (c :: cs) = c :: cs := by
  obtain ⟨x, hx⟩ := h
  rw [trimChars, trimL_cons_not_ws c cs hc, hx, trimR_append_not_ws x ';' (by decide)]

theorem leadsWith_append (k l x : List Char) (h : leadsWith k l = true) :
    leadsWith k (l ++ x) = true := by
  induction k generalizing l with
  | nil => rfl
  | cons a ks ih =>
    cases l with
    | nil => simp [leadsWith] at h
    | cons c cs =>
      simp only [leadsWith, Bool.and_eq_true] at h ⊢
      exact ⟨h.1, ih cs h.2⟩

theorem startsWithKeyword_append (l x : List Char)
    (h : startsWithKeyword l = true) : startsWithKeyword (l ++ x) = true := by
  rw [startsWithKeyword, List.any_eq_true] at h ⊢
  obtain ⟨k, hk, hlead⟩ := h
  exact ⟨k, hk, by rw [List.map_append]; exact leadsWith_append k _ _ hlead⟩

theorem startsWithKeyword_head (l : List Char)
    (h : startsWithKeyword l = true) :
    ∃ c cs, l = c :: cs ∧ isWS c = false ∧ (c == '-') = false := by
  cases l with
  | nil => exact absurd h (by decide)
  | cons c cs =>
    refine ⟨c, cs, rfl, ?_, ?_⟩
    · rw [startsWithKeyword, List.any_eq_true] at h
      obtain ⟨k, hk, hlead⟩ := h
      by_contra hws
      rw [Bool.not_eq_false] at hws
      have hcmem : c ∈ jsWhitespace := by
        have := hws
        rw [isWS] at this
        exact List.mem_of_elem_eq_true this
      fin_cases hk <;> fin_cases hcmem <;> simp_all [leadsWith]
    · rw [startsWithKeyword, List.any_eq_true] at h
      obtain ⟨k, hk, hlead⟩ := h
      by_contra hd
      rw [Bool.not_eq_false, beq_iff_eq] at hd
      subst hd
      fin_cases hk <;> simp_all [leadsWith]

/-! ## Splitter lemmas: the character scan -/

/-- The previous-character value after scanning `l` from `p`. -/
def prevAfter (p : Option Char) : List Char → Option Char
  | [] => p
  | c :: rest => prevAfter (some c) rest

theorem prevAfter_append_last (p : Option Char) (l : List Char) (c : Char) :
    prevAfter p (l ++ [c]) = some c := by
  induction l generalizing p with
  | nil => rfl
  | cons x xs ih => exact ih (some x)

/-- Only "is the previous character a backslash" matters to `step`. -/
theorem step_prev_congr (p q : Option Char) (c : Char) (st : SplitState)
    (hp : p ≠ some '\\') (hq : q ≠ some '\\') : step p c st = step q c st := by
  rw [step, step, quoteFlags, quoteFlags]
  simp [hp, hq]

theorem scanAux_prev_congr (l : List Char) (p q : Option Char) (st : SplitState)
    (hp : p ≠ some '\\') (hq : q ≠ some '\\') :
    scanAux p l st = scanAux q l st := by
  cases l with
  | nil => rfl
  | cons c rest =>
    show scanAux (some c) rest (step p c st) = scanAux (some c) rest (step q c st)
    rw [step_prev_congr p q c st hp hq]

theorem scanAux_append (l1 l2 : List Char) :
    ∀ (p : Option Char) (st : SplitState),
      scanAux p (l1 ++ l2) st = scanAux (prevAfter p l1) l2 (scanAux p l1 st) := by
  induction l1 with
  | nil => intro p st; rfl
  | cons c rest ih =>
    intro p st
    show scanAux (some c) (rest ++ l2) (step p c st) = _
    rw [ih (some c) (step p c st)]
    rfl

/-- Statements already collected are carried along unchanged: a scan from
an accumulator `acc` is the scan from an empty accumulator with `acc`
prepended. -/
theorem step_frame (p : Option Char) (c : Char) (acc : List (List Char))
    (cur : List Char) (d : Int) (s b : Bool) :
    step p c ⟨acc, cur, d, s, b⟩ =
      ⟨acc ++ (step p c ⟨[], cur, d, s, b⟩).stmts,
       (step p c ⟨[], cur, d, s, b⟩).cur,
       (step p c ⟨[], cur, d, s, b⟩).depth,
       (step p c ⟨[], cur, d, s, b⟩).inSingle,
       (step p c ⟨[], cur, d, s, b⟩).inDouble⟩ := by
  rw [step, step]
  simp only []
  split_ifs <;> simp

theorem scanAux_frame (l : List Char) :
    ∀ (p : Option Char) (acc : List (List Char)) (cur : List Char) (d : Int)
      (s b : Bool),
      scanAux p l ⟨acc, cur, d, s, b⟩ =
        ⟨acc ++ (scanAux p l ⟨[], cur, d, s, b⟩).stmts,
         (scanAux p l ⟨[], cur, d, s, b⟩).cur,
         (scanAux p l ⟨[], cur, d, s, b⟩).depth,
         (scanAux p l ⟨[], cur, d, s, b⟩).inSingle,
         (scanAux p l ⟨[], cur, d, s, b⟩).inDouble⟩ := by
  induction l with
  | nil => intro p acc cur d s b; simp [scanAux]
  | cons c rest ih =>
    intro p acc cur d s b
    have hl : scanAux p (c :: rest) ⟨acc, cur, d, s, b⟩
        = scanAux (some c) rest (step p c ⟨acc, cur, d, s, b⟩) := rfl
    have hr : scanAux p (c :: rest) ⟨[], cur, d, s, b⟩
        = scanAux (some c) rest (step p c ⟨[], cur, d, s, b⟩) := rfl
    rw [hl, hr, step_frame]
    rcases hstep : step p c ⟨[], cur, d, s, b⟩ with ⟨st1, cu1, d1, s1, b1⟩
    rw [ih (some c) (acc ++ st1) cu1 d1 s1 b1, ih (some c) st1 cu1 d1 s1 b1]
    simp [List.append_assoc]

/-- A character the scan treats as inert: no quote, parenthesis, semicolon
or backslash (so the state machine only appends it), and no dash, slash or
star (so comment stripping cannot touch it). -/
def plainChar (c : Char) : Bool :=
  !(c == '\'' || c == '"' || c == '(' || c == ')' || c == ';' ||
    c == '\\' || c == '-' || c == '/' || c == '*')

theorem step_plain (p : Option Char) (c : Char) (st : SplitState)
    (h : plainChar c = true) :
    step p c st = ⟨st.stmts, st.cur ++ [c], st.depth, st.inSingle, st.inDouble⟩ := by
  simp only [plainChar, Bool.not_eq_true', Bool.or_eq_false_iff,
    beq_eq_false_iff_ne, ne_eq] at h
  obtain ⟨⟨⟨⟨⟨⟨⟨⟨h1, h2⟩, h3⟩, h4⟩, h5⟩, h6⟩, h7⟩, h8⟩, h9⟩ := h
  have hq : quoteFlags p c st.inSingle st.inDouble = (st.inSingle, st.inDouble) := by
    rw [quoteFlags, if_neg (fun hc => h1 hc.1), if_neg (fun hc => h2 hc.1)]
  have hd : newDepth c st.inSingle st.inDouble st.depth = st.depth := by
    rw [newDepth]
    split_ifs <;> simp_all
  simp only [step, hq, hd]
  rw [if_neg (fun hc => h5 hc.1)]

theorem scanAux_plain (l : List Char) (h : ∀ c ∈ l, plainChar c = true) :
    ∀ (p : Option Char) (st : SplitState),
      scanAux p l st = ⟨st.stmts, st.cur ++ l, st.depth, st.inSingle, st.inDouble⟩ := by
  induction l with
  | nil => intro p st; simp [scanAux]
  | cons c rest ih =>
    intro p st
    have hc : plainChar c = true := h c (List.mem_cons_self c rest)
    have hrest : ∀ x ∈ rest, plainChar x = true :=
      fun x hx => h x (List.mem_cons_of_mem c hx)
    show scanAux (some c) rest (step p c st) = _
    rw [step_plain p c st hc, ih hrest (some c) _]
    simp

/-- `prevAfter` of a list without backslashes is never a backslash (given a
non-backslash start). -/
theorem prevAfter_no_backslash (l : List Char) :
    ∀ (p : Option Char), p ≠ some '\\' → (∀ c ∈ l, (c == '\\') = false) →
      prevAfter p l ≠ some '\\' := by
  induction l with
  | nil => intro p hp _; exact hp
  | cons c rest ih =>
    intro p hp h
    refine ih (some c) ?_ (fun x hx => h x (List.mem_cons_of_mem c hx))
    have := h c (List.mem_cons_self c rest)
    simp only [beq_eq_false_iff_ne, ne_eq] at this
    simp [this]

theorem plain_no_backslash (l : List Char) (h : ∀ c ∈ l, plainChar c = true) :
    ∀ c ∈ l, (c == '\\') = false := by
  intro c hc
  have h2 := h c hc
  simp only [plainChar, Bool.not_eq_true', Bool.or_eq_false_iff,
    beq_eq_false_iff_ne, ne_eq] at h2
  simp [h2.1.1.1.2]

/-- The scan condition "`t` is one complete, self-contained statement body":
scanning it from a fresh state splits off nothing, accumulates exactly `t`,
and returns with both quote flags down and the counter at zero. -/
def selfContained (t : List Char) : Prop :=
  scanAux none t initState = ⟨[], t, 0, false, false⟩

instance (t : List Char) : Decidable (selfContained t) := by
  unfold selfContained; infer_instance

theorem scanAux_chunk (t : List Char) (ht : selfContained t) (p : Option Char)
    (hp : p ≠ some '\\') (acc : List (List Char)) :
    scanAux p t ⟨acc, [], 0, false, false⟩ = ⟨acc, t, 0, false, false⟩ := by
  rw [scanAux_prev_congr t p none _ hp (by simp)]
  rw [scanAux_frame t none acc [] 0 false false]
  rw [show (⟨[], [], 0, false, false⟩ : SplitState) = initState from rfl] at *
  rw [selfContained] at ht
  rw [ht]
  simp

theorem step_semi_clean (q : Option Char) (acc : List (List Char))
    (t : List Char) :
    step q ';' ⟨acc, t, 0, false, false⟩ =
      ⟨acc ++ [trimL t ++ [';']], [], 0, false, false⟩ := by
  have hq : quoteFlags q ';' false false = (false, false) := by
    rw [quoteFlags, if_neg (fun hc => absurd hc.1 (by decide)),
      if_neg (fun hc => absurd hc.1 (by decide))]
  have hd : newDepth ';' false false 0 = 0 := rfl
  simp only [step, hq, hd]
  split_ifs with h1 h2
  · rw [trim_append_semi]
  · refine absurd ⟨?_, ?_⟩ h2
    · rw [trim_append_semi]; simp
    · rw [trim_append_semi]
      intro hall
      have hsemi := List.all_eq_true.1 hall ';' (by simp)
      exact absurd hsemi (by decide)
  · exact absurd (by simp) h1

/-- Scanning one self-contained statement and its semicolon from a clean
state appends the trimmed statement (with its semicolon) and returns to the
clean state. -/
theorem scanAux_chunk_semi (t : List Char) (ht : selfContained t)
    (p : Option Char) (hp : p ≠ some '\\') (acc : List (List Char))
    (rest : List Char) :
    scanAux p ((t ++ [';']) ++ rest) ⟨acc, [], 0, false, false⟩ =
      scanAux (some ';') rest ⟨acc ++ [trimL t ++ [';']], [], 0, false, false⟩ := by
  rw [scanAux_append (t ++ [';']) rest p _]
  rw [prevAfter_append_last]
  congr 1
  rw [scanAux_append t [';'] p _]
  rw [scanAux_chunk t ht p hp acc]
  show step (prevAfter p t) ';' ⟨acc, t, 0, false, false⟩ = _
  rw [step_semi_clean]

/-- The statements of the splitter's input: each chunk followed by a
semicolon. -/
def joinSemis : List (List Char) → List Char
  | [] => []
  | t :: ts => t ++ ';' :: joinSemis ts

theorem scanAux_chunks (chunks : List (List Char)) :
    ∀ (r : List Char) (p : Option Char) (acc : List (List Char)),
      (∀ t ∈ chunks, selfContained t) → p ≠ some '\\' →
      scanAux p (joinSemis chunks ++ r) ⟨acc, [], 0, false, false⟩ =
        scanAux none r
          ⟨acc ++ chunks.map (fun t => trimL t ++ [';']), [], 0, false, false⟩ := by
  induction chunks with
  | nil =>
    intro r p acc _ hp
    rw [joinSemis, List.nil_append, List.map_nil, List.append_nil]
    exact scanAux_prev_congr r p none _ hp (by simp)
  | cons t ts ih =>
    intro r p acc hsc hp
    have h1 : joinSemis (t :: ts) ++ r = (t ++ [';']) ++ (joinSemis ts ++ r) := by
      rw [joinSemis]
      simp
    rw [h1]
    rw [scanAux_chunk_semi t (hsc t (List.mem_cons_self t ts)) p hp acc _]
    rw [ih r (some ';') (acc ++ [trimL t ++ [';']])
      (fun x hx => hsc x (List.mem_cons_of_mem t hx)) (by simp)]
    rw [List.map_cons, List.append_assoc]
    rfl

/-! ## Splitter lemmas: comment stripping and trimming as identity -/

theorem stripLC_no_dash (l : List Char) (h : ∀ c ∈ l, c ≠ '-') :
    stripLC false l = l := by
  induction l with
  | nil => rfl
  | cons c rest ih =>
    have hc : c ≠ '-' := h c (List.mem_cons_self c rest)
    have hrest : ∀ x ∈ rest, x ≠ '-' := fun x hx => h x (List.mem_cons_of_mem c hx)
    rw [stripLC.eq_def]
    split
    next heq => simp at heq
    next => simp_all
    next rest2 heq =>
      rw [List.cons.injEq] at heq
      exact absurd heq.1 hc
    next c2 rest2 heq =>
      rw [List.cons.injEq] at heq
      obtain ⟨h1, h2⟩ := heq
      subst h1
      subst h2
      rw [ih hrest]

theorem stripBC_no_slash (l : List Char) (h : ∀ c ∈ l, c ≠ '/') :
    stripBC false l = l := by
  induction l with
  | nil => rfl
  | cons c rest ih =>
    have hc : c ≠ '/' := h c (List.mem_cons_self c rest)
    have hrest : ∀ x ∈ rest, x ≠ '/' := fun x hx => h x (List.mem_cons_of_mem c hx)
    rw [stripBC.eq_def]
    split
    next heq => simp at heq
    next => simp_all
    next => simp_all
    next rest2 heq =>
      rw [List.cons.injEq] at heq
      exact absurd heq.1 hc
    next c2 rest2 heq =>
      rw [List.cons.injEq] at heq
      obtain ⟨h1, h2⟩ := heq
      subst h1
      subst h2
      rw [ih hrest]

/-- The trimmed-right part is an initial segment of the list. -/
theorem trimR_front (l : List Char) : ∃ w, l = trimR l ++ w := by
  obtain ⟨w, hw⟩ := (List.dropWhile_suffix isWS (l := l.reverse))
  refine ⟨w.reverse, ?_⟩
  rw [trimR, ← List.reverse_append, hw, List.reverse_reverse]

theorem trimChars_head (l : List Char) (c : Char) (cs : List Char)
    (h : trimChars l = c :: cs) : isWS c = false := by
  obtain ⟨w, hw⟩ := trimR_front (trimL l)
  rw [trimChars] at h
  rw [h] at hw
  exact dropWhile_pred_head isWS l c (cs ++ w) (by rw [trimL] at hw; rw [hw, List.cons_append])

theorem trimL_of_trimChars (l : List Char) (h : trimChars l ≠ []) :
    trimL (trimChars l) = trimChars l := by
  rcases hy : trimChars l with _ | ⟨c, cs⟩
  · exact absurd hy h
  · exact trimL_cons_not_ws c cs (trimChars_head l c cs hy)

theorem trimChars_idem (l : List Char) : trimChars (trimChars l) = trimChars l := by
  rcases hy : trimChars l with _ | ⟨c, cs⟩
  · rfl
  · have hc := trimChars_head l c cs hy
    rw [trimChars, trimL_cons_not_ws c cs hc, ← hy]
    exact trimR_idem (trimL l)

theorem keepStmt_true (e : List Char) (hkw : startsWithKeyword e = true)
    (htr : trimChars e = e) : keepStmt e = true := by
  obtain ⟨c, cs, hcons, hws, hdash⟩ := startsWithKeyword_head e hkw
  rw [keepStmt, htr, hcons]
  simp only [Bool.and_eq_true]
  refine ⟨⟨⟨by simp, ?_⟩, ?_⟩, by rw [← hcons]; exact hkw⟩
  · simp [List.all_cons, hws]
  · simp [isDashLine, hdash]

theorem finishScan_nil (stmts : List (List Char)) :
    finishScan ⟨stmts, [], 0, false, false⟩ = stmts := by
  rw [finishScan]
  simp [trimChars, trimL, trimR]

theorem finishScan_rem (stmts : List (List Char)) (r : List Char)
    (hr : trimChars r ≠ []) :
    finishScan ⟨stmts, r, 0, false, false⟩ =
      stmts ++ [trimChars r ++
        (if (trimChars r).getLast? = some ';' then [] else [';'])] := by
  rcases hy : trimChars r with _ | ⟨c, cs⟩
  · exact absurd hy hr
  · have hc := trimChars_head r c cs hy
    have hall : ¬ (trimChars r).all isWS = true := by
      rw [hy]
      simp [List.all_cons, hc]
    rw [finishScan, if_pos ⟨hr, hall⟩]
    simp [hy]

/-! ## Splitter lemmas: concrete characters in the scan -/

theorem plainChar_spec (c : Char) (h : plainChar c = true) :
    c ≠ '\'' ∧ c ≠ '"' ∧ c ≠ '(' ∧ c ≠ ')' ∧ c ≠ ';' ∧ c ≠ '\\' ∧ c ≠ '-' ∧
      c ≠ '/' ∧ c ≠ '*' := by
  simp only [plainChar, Bool.not_eq_true', Bool.or_eq_false_iff,
    beq_eq_false_iff_ne, ne_eq] at h
  obtain ⟨⟨⟨⟨⟨⟨⟨⟨h1, h2⟩, h3⟩, h4⟩, h5⟩, h6⟩, h7⟩, h8⟩, h9⟩ := h
  exact ⟨h1, h2, h3, h4, h5, h6, h7, h8, h9⟩

theorem step_open (q : Option Char) (acc : List (List Char)) (cur : List Char)
    (d : Int) :
    step q '(' ⟨acc, cur, d, false, false⟩ =
      ⟨acc, cur ++ ['('], d + 1, false, false⟩ := rfl

theorem step_close (q : Option Char) (acc : List (List Char)) (cur : List Char)
    (d : Int) :
    step q ')' ⟨acc, cur, d, false, false⟩ =
      ⟨acc, cur ++ [')'], d - 1, false, false⟩ := rfl

theorem step_semi_in_single (q : Option Char) (acc : List (List Char))
    (cur : List Char) (d : Int) :
    step q ';' ⟨acc, cur, d, true, false⟩ =
      ⟨acc, cur ++ [';'], d, true, false⟩ := rfl

theorem step_semi_in_paren (q : Option Char) (acc : List (List Char))
    (cur : List Char) (d : Int) (hd : d ≠ 0) :
    step q ';' ⟨acc, cur, d, false, false⟩ =
      ⟨acc, cur ++ [';'], d, false, false⟩ := by
  have hq : quoteFlags q ';' false false = (false, false) := by
    rw [quoteFlags, if_neg (fun hc => absurd hc.1 (by decide)),
      if_neg (fun hc => absurd hc.1 (by decide))]
  have hd2 : newDepth ';' false false d = d := rfl
  simp only [step, hq, hd2]
  rw [if_neg (fun hc => hd hc.2.2.2)]

theorem step_quote_on (q : Option Char) (hq : q ≠ some '\\')
    (acc : List (List Char)) (cur : List Char) (d : Int) :
    step q '\'' ⟨acc, cur, d, false, false⟩ =
      ⟨acc, cur ++ ['\''], d, true, false⟩ := by
  have hfl : quoteFlags q '\'' false false = (true, false) := by
    rw [quoteFlags, if_pos ⟨rfl, hq, rfl⟩]
    rfl
  simp only [step, hfl]
  rw [if_neg (fun hc => absurd hc.1 (by decide))]
  rfl

theorem step_quote_off (q : Option Char) (hq : q ≠ some '\\')
    (acc : List (List Char)) (cur : List Char) (d : Int) :
    step q '\'' ⟨acc, cur, d, true, false⟩ =
      ⟨acc, cur ++ ['\''], d, false, false⟩ := by
  have hfl : quoteFlags q '\'' true false = (false, false) := by
    rw [quoteFlags, if_pos ⟨rfl, hq, rfl⟩]
    rfl
  simp only [step, hfl]
  rw [if_neg (fun hc => absurd hc.1 (by decide))]
  rfl

/-- A statement body with a single-quoted string (holding a semicolon)
inside a parenthesized group is self-contained: the scan keeps
accumulating through the quoted semicolon. -/
theorem selfContained_quoted (pre u a b v : List Char)
    (hpre : ∀ c ∈ pre, plainChar c = true) (hu : ∀ c ∈ u, plainChar c = true)
    (ha : ∀ c ∈ a, plainChar c = true) (hb : ∀ c ∈ b, plainChar c = true)
    (hv : ∀ c ∈ v, plainChar c = true) :
    selfContained
      (pre ++ ('(' :: (u ++ ('\'' :: (a ++ (';' :: (b ++ ('\'' :: (v ++ [')']))))))))) := by
  have hqu : prevAfter (some '(') u ≠ some '\\' :=
    prevAfter_no_backslash u (some '(') (by simp) (plain_no_backslash u hu)
  have hqb : prevAfter (some ';') b ≠ some '\\' :=
    prevAfter_no_backslash b (some ';') (by simp) (plain_no_backslash b hb)
  rw [selfContained]
  rw [scanAux_append pre _ none initState, scanAux_plain pre hpre none initState]
  show scanAux (some '(') (u ++ ('\'' :: (a ++ (';' :: (b ++ ('\'' :: (v ++ [')'])))))))
      (step (prevAfter none pre) '(' ⟨[], [] ++ pre, 0, false, false⟩) = _
  rw [step_open]
  rw [scanAux_append u _ (some '(') _, scanAux_plain u hu (some '(') _]
  show scanAux (some '\'') (a ++ (';' :: (b ++ ('\'' :: (v ++ [')'])))))
      (step (prevAfter (some '(') u) '\''
        ⟨[], (([] ++ pre) ++ ['(']) ++ u, 0 + 1, false, false⟩) = _
  rw [step_quote_on _ hqu _ _ _]
  rw [scanAux_append a _ (some '\'') _, scanAux_plain a ha (some '\'') _]
  show scanAux (some ';') (b ++ ('\'' :: (v ++ [')'])))
      (step (prevAfter (some '\'') a) ';'
        ⟨[], ((([] ++ pre) ++ ['(']) ++ u ++ ['\'']) ++ a, 0 + 1, true, false⟩) = _
  rw [step_semi_in_single]
  rw [scanAux_append b _ (some ';') _, scanAux_plain b hb (some ';') _]
  show scanAux (some '\'') (v ++ [')'])
      (step (prevAfter (some ';') b) '\''
        ⟨[], (((([] ++ pre) ++ ['(']) ++ u ++ ['\'']) ++ a ++ [';']) ++ b, 0 + 1,
          true, false⟩) = _
  rw [step_quote_off _ hqb _ _ _]
  rw [scanAux_append v [')'] (some '\'') _, scanAux_plain v hv (some '\'') _]
  show step (prevAfter (some '\'') v) ')'
      ⟨[], ((((([] ++ pre) ++ ['(']) ++ u ++ ['\'']) ++ a ++ [';']) ++ b ++ ['\'']) ++ v,
        0 + 1, false, false⟩ = _
  rw [step_close]
  refine congrArg₂ (fun x y => SplitState.mk [] x y false false) ?_ (by omega)
  simp

/-- A statement body with a semicolon inside a parenthesized group is
self-contained: the scan does not split while the counter is non-zero. -/
theorem selfContained_paren (pre u v : List Char)
    (hpre : ∀ c ∈ pre, plainChar c = true) (hu : ∀ c ∈ u, plainChar c = true)
    (hv : ∀ c ∈ v, plainChar c = true) :
    selfContained (pre ++ ('(' :: (u ++ (';' :: (v ++ [')']))))) := by
  rw [selfContained]
  rw [scanAux_append pre _ none initState, scanAux_plain pre hpre none initState]
  show scanAux (some '(') (u ++ (';' :: (v ++ [')'])))
      (step (prevAfter none pre) '(' ⟨[], [] ++ pre, 0, false, false⟩) = _
  rw [step_open]
  rw [scanAux_append u _ (some '(') _, scanAux_plain u hu (some '(') _]
  show scanAux (some ';') (v ++ [')'])
      (step (prevAfter (some '(') u) ';'
        ⟨[], (([] ++ pre) ++ ['(']) ++ u, 0 + 1, false, false⟩) = _
  rw [step_semi_in_paren _ _ _ _ (by omega)]
  rw [scanAux_append v [')'] (some ';') _, scanAux_plain v hv (some ';') _]
  show step (prevAfter (some ';') v) ')'
      ⟨[], ((([] ++ pre) ++ ['(']) ++ u ++ [';']) ++ v, 0 + 1, false, false⟩ = _
  rw [step_close]
  refine congrArg₂ (fun x y => SplitState.mk [] x y false false) ?_ (by omega)
  simp

theorem keepStmt_chunkElem (t : List Char)
    (h : startsWithKeyword (trimL t) = true) :
    keepStmt (trimL t ++ [';']) = true :=
  keepStmt_true _ (startsWithKeyword_append _ _ h)
    (by rw [trim_append_semi, trimL_idem])

theorem finishScan_rem_empty (stmts : List (List Char)) (r : List Char)
    (h : trimChars r = []) : finishScan ⟨stmts, r, 0, false, false⟩ = stmts := by
  rw [finishScan]
  simp [h]

/-- The central splitter computation: on comment-free, trimmed input made
of self-contained keyword-starting statements and a remainder, `parseSQL`
returns the trimmed statements in order, each with its semicolon, plus the
remainder with a forced semicolon. -/
theorem parseSQL_splits (chunks : List (List Char)) (r : List Char)
    (hsc : ∀ t ∈ chunks, selfContained t)
    (hkw : ∀ t ∈ chunks, startsWithKeyword (trimL t) = true)
    (hr : selfContained r)
    (hrk : trimChars r = [] ∨ startsWithKeyword (trimChars r) = true)
    (hlc : stripLC false (joinSemis chunks ++ r) = joinSemis chunks ++ r)
    (hbc : stripBC false (joinSemis chunks ++ r) = joinSemis chunks ++ r)
    (htr : trimChars (joinSemis chunks ++ r) = joinSemis chunks ++ r) :
    parseSQLChars (joinSemis chunks ++ r) =
      chunks.map (fun t => trimL t ++ [';']) ++
        (if trimChars r = [] then []
         else [trimChars r ++
           (if (trimChars r).getLast? = some ';' then [] else [';'])]) := by
  simp only [parseSQLChars]
  rw [hlc, hbc, htr]
  rw [show (initState : SplitState) = ⟨[], [], 0, false, false⟩ from rfl]
  rw [scanAux_chunks chunks r none [] hsc (by simp)]
  rw [scanAux_chunk r hr none (by simp) _]
  simp only [List.nil_append]
  rcases hrk with hre | hkr
  · rw [finishScan_rem_empty _ r hre, if_pos hre, List.append_nil]
    exact List.filter_eq_self.2 (fun e he => by
      obtain ⟨t, ht, rfl⟩ := List.mem_map.1 he
      exact keepStmt_chunkElem t (hkw t ht))
  · have hne : trimChars r ≠ [] := by
      obtain ⟨c, cs, hcons, _, _⟩ := startsWithKeyword_head _ hkr
      simp [hcons]
    rw [finishScan_rem _ r hne, if_neg hne, List.filter_append]
    congr 1
    · exact List.filter_eq_self.2 (fun e he => by
        obtain ⟨t, ht, rfl⟩ := List.mem_map.1 he
        exact keepStmt_chunkElem t (hkw t ht))
    · by_cases hg : (trimChars r).getLast? = some ';'
      · rw [if_pos hg]
        have hk : keepStmt (trimChars r ++ []) = true := by
          rw [List.append_nil]
          exact keepStmt_true _ hkr (trimChars_idem r)
        simp only [List.filter, hk]
      · rw [if_neg hg]
        have hk : keepStmt (trimChars r ++ [';']) = true :=
          keepStmt_true _ (startsWithKeyword_append _ _ hkr)
            (by rw [trim_append_semi, trimL_of_trimChars r hne])
        simp only [List.filter, hk]

/-- A single keyword-starting, self-contained statement with its
semicolon is returned whole. -/
theorem parseSQLChars_single (t : List Char)
    (hsc : selfContained t) (hkw : startsWithKeyword t = true)
    (hlc : stripLC false (t ++ [';']) = t ++ [';'])
    (hbc : stripBC false (t ++ [';']) = t ++ [';']) :
    parseSQLChars (t ++ [';']) = [t ++ [';']] := by
  obtain ⟨c, cs, hcons, hws, _⟩ := startsWithKeyword_head t hkw
  have htrimL : trimL t = t := by rw [hcons]; exact trimL_cons_not_ws c cs hws
  have htr : trimChars (t ++ [';']) = t ++ [';'] := by
    rw [trim_append_semi, htrimL]
  have hjoin : joinSemis [t] ++ ([] : List Char) = t ++ [';'] := by
    rw [joinSemis, joinSemis]
    simp
  rw [← hjoin] at hlc hbc htr ⊢
  rw [parseSQL_splits [t] [] (by simpa using hsc) (by simp [htrimL, hkw])
    rfl (Or.inl rfl) hlc hbc htr]
  simp [htrimL, joinSemis]
  rfl

/-- Claim C1 (corrected): for sanitized input consisting of `N` top-level
semicolon-terminated statements (no semicolons inside quotes or
parentheses) followed by a remainder, `parseSQL` returns exactly the `N`
statements, trimmed, each ending in `;`, in the original order, and
appends any non-empty remainder as a final statement with a trailing
semicolon forced if absent — provided every statement begins with a
DDL/DML keyword.  The keyword proviso is the correction: the final filter
otherwise drops statements, so the count is not `N` for e.g. `SELECT`
input (see the counterexample). -/
theorem parseSQL_topLevel_statements (chunks : List (List Char)) (r : List Char)
    (hsc : ∀ t ∈ chunks, selfContained t)
    (hkw : ∀ t ∈ chunks, startsWithKeyword (trimL t) = true)
    (hr : selfContained r)
    (hrk : trimChars r = [] ∨ startsWithKeyword (trimChars r) = true)
    (hlc : stripLC false (joinSemis chunks ++ r) = joinSemis chunks ++ r)
    (hbc : stripBC false (joinSemis chunks ++ r) = joinSemis chunks ++ r)
    (htr : trimChars (joinSemis chunks ++ r) = joinSemis chunks ++ r) :
    parseSQLChars (joinSemis chunks ++ r) =
      chunks.map (fun t => trimL t ++ [';']) ++
        (if trimChars r = [] then []
         else [trimChars r ++
           (if (trimChars r).getLast? = some ';' then [] else [';'])]) ∧
    (trimChars r = [] →
      (parseSQLChars (joinSemis chunks ++ r)).length = chunks.length) := by
  have h := parseSQL_splits chunks r hsc hkw hr hrk hlc hbc htr
  refine ⟨h, fun hre => ?_⟩
  rw [h, if_pos hre]
  simp

theorem parseSQL_topLevel_statements_witness :
    parseSQLChars (joinSemis [String.data "CREATE TABLE a (x)",
        String.data "INSERT INTO a VALUES (2)"] ++ String.data "DROP TABLE a") =
      [String.data "CREATE TABLE a (x);",
       String.data "INSERT INTO a VALUES (2);",
       String.data "DROP TABLE a;"] := by
  have h := (parseSQL_topLevel_statements
    [String.data "CREATE TABLE a (x)", String.data "INSERT INTO a VALUES (2)"]
    (String.data "DROP TABLE a") (by decide) (by decide) (by decide)
    (by decide) (by decide) (by decide) (by decide)).1
  rw [h]
  decide

/-- Claim C1 counterexample: `SELECT 1;` is a sanitized input (comment
stripping and trimming leave it unchanged) with exactly one top-level
semicolon-terminated statement, yet `parseSQL` returns no entries: the
claim's "exactly N entries" fails without the keyword proviso. -/
theorem parseSQL_select_dropped :
    selfContained (String.data "SELECT 1") ∧
    stripLC false (String.data "SELECT 1;") = String.data "SELECT 1;" ∧
    stripBC false (String.data "SELECT 1;") = String.data "SELECT 1;" ∧
    trimChars (String.data "SELECT 1;") = String.data "SELECT 1;" ∧
    parseSQLChars (String.data "SELECT 1;") = [] := by decide

/-- Claim C2 (confirmed): a statement whose parenthesized part carries a
single-quoted string literal containing a semicolon — the shape of
`INSERT INTO t VALUES ('a;b');` — is returned by `parseSQL` as one
statement, not split at the internal semicolon. -/
theorem parseSQL_semicolon_in_single_quotes (pre u a b v : List Char)
    (hpre : ∀ c ∈ pre, plainChar c = true) (hu : ∀ c ∈ u, plainChar c = true)
    (ha : ∀ c ∈ a, plainChar c = true) (hb : ∀ c ∈ b, plainChar c = true)
    (hv : ∀ c ∈ v, plainChar c = true) (hkw : startsWithKeyword pre = true) :
    parseSQLChars
        ((pre ++ ('(' :: (u ++ ('\'' :: (a ++ (';' :: (b ++ ('\'' :: (v ++ [')']))))))))) ++ [';']) =
      [(pre ++ ('(' :: (u ++ ('\'' :: (a ++ (';' :: (b ++ ('\'' :: (v ++ [')']))))))))) ++ [';']] := by
  have hmem : ∀ c ∈ (pre ++
        ('(' :: (u ++ ('\'' :: (a ++ (';' :: (b ++ ('\'' :: (v ++ [')']))))))))) ++ [';'],
      c ∈ pre ∨ c ∈ u ∨ c ∈ a ∨ c ∈ b ∨ c ∈ v ∨
        c = '(' ∨ c = '\'' ∨ c = ';' ∨ c = ')' := by
    intro c hc
    simp only [List.mem_append, List.mem_cons, List.mem_singleton] at hc
    tauto
  refine parseSQLChars_single _ (selfContained_quoted pre u a b v hpre hu ha hb hv)
    (startsWithKeyword_append pre _ hkw) ?_ ?_
  · refine stripLC_no_dash _ ?_
    intro c hc
    rcases hmem c hc with h | h | h | h | h | h | h | h | h
    exacts [(plainChar_spec c (hpre c h)).2.2.2.2.2.2.1,
      (plainChar_spec c (hu c h)).2.2.2.2.2.2.1,
      (plainChar_spec c (ha c h)).2.2.2.2.2.2.1,
      (plainChar_spec c (hb c h)).2.2.2.2.2.2.1,
      (plainChar_spec c (hv c h)).2.2.2.2.2.2.1,
      by subst h; decide, by subst h; decide, by subst h; decide,
      by subst h; decide]
  · refine stripBC_no_slash _ ?_
    intro c hc
    rcases hmem c hc with h | h | h | h | h | h | h | h | h
    exacts [(plainChar_spec c (hpre c h)).2.2.2.2.2.2.2.1,
      (plainChar_spec c (hu c h)).2.2.2.2.2.2.2.1,
      (plainChar_spec c (ha c h)).2.2.2.2.2.2.2.1,
      (plainChar_spec c (hb c h)).2.2.2.2.2.2.2.1,
      (plainChar_spec c (hv c h)).2.2.2.2.2.2.2.1,
      by subst h; decide, by subst h; decide, by subst h; decide,
      by subst h; decide]

theorem parseSQL_semicolon_in_single_quotes_witness :
    parseSQLChars (String.data "INSERT INTO t VALUES ('a;b');") =
      [String.data "INSERT INTO t VALUES ('a;b');"] := by
  have h := parseSQL_semicolon_in_single_quotes
    (String.data "INSERT INTO t VALUES ") [] ['a'] ['b'] []
    (by decide) (by decide) (by decide) (by decide) (by decide) (by decide)
  have e : (String.data "INSERT INTO t VALUES " ++
      ('(' :: (([] : List Char) ++ ('\'' :: (['a'] ++
        (';' :: (['b'] ++ ('\'' :: (([] : List Char) ++ [')']))))))))) ++ [';'] =
      String.data "INSERT INTO t VALUES ('a;b');" := by decide
  rw [e] at h
  exact h

/-- A semicolon splits exactly in the clean state (helper for C3). -/
theorem semi_split_iff (q : Option Char) (st : SplitState) :
    ((step q ';' st).stmts ≠ st.stmts) ↔
      (st.inSingle = false ∧ st.inDouble = false ∧ st.depth = 0) := by
  rcases st with ⟨stmts, cur, d, sgl, dbl⟩
  have hq : quoteFlags q ';' sgl dbl = (sgl, dbl) := rfl
  have hne1 : (';' : Char) ≠ '(' := by decide
  have hne2 : (';' : Char) ≠ ')' := by decide
  have hd : newDepth ';' sgl dbl d = d := by
    rw [newDepth]
    split_ifs <;> simp_all
  simp only [step, hq, hd]
  split_ifs with h1 h2
  · refine ⟨fun _ => ⟨h1.2.1, h1.2.2.1, h1.2.2.2⟩, fun _ => ?_⟩
    intro heq
    have hlen := congrArg List.length heq
    simp at hlen
  · refine absurd ⟨?_, ?_⟩ h2
    · rw [trim_append_semi]
      simp
    · rw [trim_append_semi]
      intro hall
      exact absurd (List.all_eq_true.1 hall ';' (by simp)) (by decide)
  · exact ⟨fun hne => absurd rfl hne,
      fun hc2 => absurd ⟨by trivial, hc2.1, hc2.2.1, hc2.2.2⟩ h1⟩

/-- Claim C3 (confirmed): a semicolon ends the current statement exactly
when both quote flags are down and the parenthesis counter is zero; in
particular a semicolon inside a parenthesized group (even spanning
several lines) does not split the statement — the whole statement is
returned in one piece once the depth returns to zero. -/
theorem parseSQL_semicolon_in_parens :
    (∀ (q : Option Char) (st : SplitState),
        ((step q ';' st).stmts ≠ st.stmts) ↔
          (st.inSingle = false ∧ st.inDouble = false ∧ st.depth = 0)) ∧
    (∀ pre u v : List Char,
      (∀ c ∈ pre, plainChar c = true) → (∀ c ∈ u, plainChar c = true) →
      (∀ c ∈ v, plainChar c = true) → startsWithKeyword pre = true →
      parseSQLChars ((pre ++ ('(' :: (u ++ (';' :: (v ++ [')']))))) ++ [';']) =
        [(pre ++ ('(' :: (u ++ (';' :: (v ++ [')']))))) ++ [';']]) := by
  refine ⟨semi_split_iff, ?_⟩
  intro pre u v hpre hu hv hkw
  have hmem : ∀ c ∈ (pre ++ ('(' :: (u ++ (';' :: (v ++ [')']))))) ++ [';'],
      c ∈ pre ∨ c ∈ u ∨ c ∈ v ∨ c = '(' ∨ c = ';' ∨ c = ')' := by
    intro c hc
    simp only [List.mem_append, List.mem_cons, List.mem_singleton] at hc
    tauto
  refine parseSQLChars_single _ (selfContained_paren pre u v hpre hu hv)
    (startsWithKeyword_append pre _ hkw) ?_ ?_
  · refine stripLC_no_dash _ ?_
    intro c hc
    rcases hmem c hc with h | h | h | h | h | h
    exacts [(plainChar_spec c (hpre c h)).2.2.2.2.2.2.1,
      (plainChar_spec c (hu c h)).2.2.2.2.2.2.1,
      (plainChar_spec c (hv c h)).2.2.2.2.2.2.1,
      by subst h; decide, by subst h; decide, by subst h; decide]
  · refine stripBC_no_slash _ ?_
    intro c hc
    rcases hmem c hc with h | h | h | h | h | h
    exacts [(plainChar_spec c (hpre c h)).2.2.2.2.2.2.2.1,
      (plainChar_spec c (hu c h)).2.2.2.2.2.2.2.1,
      (plainChar_spec c (hv c h)).2.2.2.2.2.2.2.1,
      by subst h; decide, by subst h; decide, by subst h; decide]

theorem parseSQL_semicolon_in_parens_witness :
    parseSQLChars (String.data "CREATE TABLE t (\n a;\n b);") =
      [String.data "CREATE TABLE t (\n a;\n b);"] := by
  have h := parseSQL_semicolon_in_parens.2 (String.data "CREATE TABLE t ")
    (String.data "\n a") (String.data "\n b")
    (by decide) (by decide) (by decide) (by decide)
  have e : (String.data "CREATE TABLE t " ++
      ('(' :: (String.data "\n a" ++ (';' :: (String.data "\n b" ++ [')']))))) ++ [';'] =
      String.data "CREATE TABLE t (\n a;\n b);" := by decide
  rw [e] at h
  exact h

/-! ## Claim theorems: the sanitizer's degenerate case (C8) -/

theorem cleanLoop_no_entry (lines : List (List Char))
    (h : ∀ line ∈ lines, startsWithKeyword (trimChars line) = false ∧
      startsWithDashes (trimChars line) = false) :
    cleanLoop false lines = [] := by
  induction lines with
  | nil => rfl
  | cons line rest ih =>
    obtain ⟨h1, h2⟩ := h line (List.mem_cons_self line rest)
    have hrest := fun x hx => h x (List.mem_cons_of_mem line hx)
    simp only [cleanLoop]
    by_cases ht : trimChars line = []
    · rw [if_pos ⟨by trivial, ht⟩]
      exact ih hrest
    · rw [if_neg (fun hc => ht hc.2)]
      rw [if_neg (by simp [h1, h2])]
      rw [if_neg (by simp)]
      rw [ite_self]
      exact ih hrest

/-- Claim C8 (corrected): when no line of the fence-stripped, trimmed
input begins (after trimming) with a DDL/DML keyword or with `--`, the
sanitizer returns the empty string.  The `--` alternative is the
correction: a comment line also opens the SQL region, so an input with no
SQL keyword at all can still produce non-empty output (see the
counterexample). -/
theorem cleanGeneratedDatabase_no_entry (s : List Char)
    (h : ∀ line ∈ splitNL (trimChars (stripPF false (stripSF false s))),
      startsWithKeyword (trimChars line) = false ∧
      startsWithDashes (trimChars line) = false) :
    cleanGeneratedDatabase s = [] := by
  simp only [cleanGeneratedDatabase]
  rw [cleanLoop_no_entry _ h]
  rfl

theorem cleanGeneratedDatabase_no_entry_witness :
    cleanGeneratedDatabase
      (String.data "Sure! Here is a schema idea.\nIt uses one users table.") = [] :=
  cleanGeneratedDatabase_no_entry _ (by decide)

/-- Claim C8 counterexample: `-- note` contains no SQL keyword at all,
yet the sanitizer returns it unchanged (a `--` line enters the SQL
region), so "no recognizable SQL keyword implies empty result" fails as
stated. -/
theorem cleanGeneratedDatabase_dash_comment :
    containsKeywordSub (String.data "-- note") = false ∧
    cleanGeneratedDatabase (String.data "-- note") = String.data "-- note" := by
  decide

/-! ## Claim theorems: the error locator (C9) -/

theorem locateLines_none (tok : List Char) :
    ∀ (lines : List (List Char)) (i : Nat),
      (∀ line ∈ lines, idxOfCI tok line = none) →
      locateLines tok i lines = none := by
  intro lines
  induction lines with
  | nil => intro i _; rfl
  | cons l rest ih =>
    intro i h
    simp only [locateLines]
    rw [h l (List.mem_cons_self l rest)]
    exact ih (i + 1) (fun x hx => h x (List.mem_cons_of_mem l hx))

theorem locateLines_found (tok : List Char) :
    ∀ (lines : List (List Char)) (i n col : Nat) (ctx : List Char),
      locateLines tok i lines = some (n, col, ctx) →
      ∃ j line, lines.get? j = some line ∧ n = i + j + 1 ∧
        idxOfCI tok line = some (col - 1) ∧ ctx = trimChars line ∧
        ∀ k line2, k < j → lines.get? k = some line2 →
          idxOfCI tok line2 = none := by
  intro lines
  induction lines with
  | nil => intro i n col ctx h; simp [locateLines] at h
  | cons l rest ih =>
    intro i n col ctx h
    simp only [locateLines] at h
    rcases hidx : idxOfCI tok l with _ | idx
    · rw [hidx] at h
      obtain ⟨j, line, hj, hn, hcol, hctx, hmin⟩ := ih (i + 1) n col ctx h
      refine ⟨j + 1, line, by simpa using hj, by omega, hcol, hctx, ?_⟩
      intro k line2 hk hget
      cases k with
      | zero =>
        have hline2 : l = line2 := by simpa using hget
        rw [← hline2]
        exact hidx
      | succ k2 =>
        exact hmin k2 line2 (by omega) (by simpa using hget)
    · rw [hidx] at h
      simp only [Option.some.injEq, Prod.mk.injEq] at h
      obtain ⟨hn, hcol, hctx⟩ := h
      refine ⟨0, l, rfl, by omega, ?_, hctx.symm, ?_⟩
      · rw [hidx, ← hcol]
        simp
      · intro k line2 hk _
        exact absurd hk (by omega)

/-- Do the first two characters exist and equal a backtick? -/
def pairAtHead : List Char → Bool
  | a :: b :: _ => a == backTick && b == backTick
  | _ => false

/-- Do the first three characters exist and equal a backtick? -/
def tripleAtHead : List Char → Bool
  | a :: b :: c :: _ => a == backTick && b == backTick && c == backTick
  | _ => false

/-- Does ` ``` ` occur anywhere? -/
def hasTriple : List Char → Bool
  | a :: b :: c :: rest =>
    (a == backTick && b == backTick && c == backTick) || hasTriple (b :: c :: rest)
  | _ => false

theorem hasTriple_cons (x : Char) (xs : List Char) :
    hasTriple (x :: xs) = (tripleAtHead (x :: xs) || hasTriple xs) := by
  match xs with
  | [] => rfl
  | [y] => rfl
  | y :: z :: w => rfl

theorem hasTriple_iff (l : List Char) :
    hasTriple l = true ↔
      ∃ u v, l = u ++ backTick :: backTick :: backTick :: v := by
  constructor
  · intro h
    induction l with
    | nil => simp [hasTriple] at h
    | cons x xs ih =>
      rw [hasTriple_cons, Bool.or_eq_true] at h
      rcases h with h | h
      · match xs, h with
        | b :: c :: rest, h =>
          simp only [tripleAtHead, Bool.and_eq_true, beq_iff_eq] at h
          exact ⟨[], rest, by rw [h.1.1, h.1.2, h.2]; rfl⟩
      · obtain ⟨u, v, huv⟩ := ih h
        exact ⟨x :: u, v, by rw [huv]; rfl⟩
  · intro ⟨u, v, huv⟩
    subst huv
    induction u with
    | nil => simp [hasTriple]
    | cons x u2 ih =>
      rw [List.cons_append, hasTriple_cons, Bool.or_eq_true]
      exact Or.inr ih

theorem hasTriple_mono (m a b : List Char) (h : hasTriple m = true) :
    hasTriple (a ++ m ++ b) = true := by
  obtain ⟨u, v, huv⟩ := (hasTriple_iff m).1 h
  refine (hasTriple_iff _).2 ⟨a ++ u, v ++ b, ?_⟩
  rw [huv]
  simp

theorem hasTriple_short (l : List Char) (h : l.length ≤ 2) :
    hasTriple l = false := by
  match l, h with
  | [], _ => rfl
  | [a], _ => rfl
  | [a, b], _ => rfl

/-- A triple in `a ++ d :: b` with `d` no backtick lies in `a` or in `b`. -/
theorem hasTriple_split (d : Char) (hd : d ≠ backTick) :
    ∀ a b : List Char, hasTriple (a ++ d :: b) = true →
      hasTriple a = true ∨ hasTriple b = true := by
  intro a
  induction a with
  | nil =>
    intro b h
    rw [List.nil_append, hasTriple_cons, Bool.or_eq_true] at h
    rcases h with h | h
    · match b, h with
      | x :: y :: w, h =>
        simp only [tripleAtHead, Bool.and_eq_true, beq_iff_eq] at h
        exact absurd h.1.1 hd
    · exact Or.inr h
  | cons x a2 ih =>
    intro b h
    rw [List.cons_append, hasTriple_cons, Bool.or_eq_true] at h
    rcases h with h | h
    · match a2, h with
      | [], h =>
        match b, h with
        | [], h => exact absurd h (by simp [tripleAtHead])
        | y :: b2, h =>
          simp only [List.nil_append, tripleAtHead, Bool.and_eq_true,
            beq_iff_eq] at h
          exact absurd h.1.2 hd
      | [y], h =>
        simp only [List.cons_append, List.nil_append, tripleAtHead,
          Bool.and_eq_true, beq_iff_eq] at h
        exact absurd h.2 hd
      | y :: z :: a3, h =>
        simp only [List.cons_append, tripleAtHead, Bool.and_eq_true,
          beq_iff_eq] at h
        refine Or.inl ?_
        rw [hasTriple]
        simp [h.1.1, h.1.2, h.2]
    · rcases ih b h with h2 | h2
      · refine Or.inl ?_
        rw [hasTriple_cons, Bool.or_eq_true]
        exact Or.inr h2
      · exact Or.inr h2

theorem tripleAtHead_cons (x : Char) (xs : List Char) :
    tripleAtHead (x :: xs) = (x == backTick && pairAtHead xs) := by
  match xs with
  | [] => simp [tripleAtHead, pairAtHead]
  | [y] => simp [tripleAtHead, pairAtHead]
  | y :: z :: w => simp [tripleAtHead, pairAtHead, Bool.and_assoc]

theorem stripPF_head_bt (l : List Char)
    (h : (stripPF false l).head? = some backTick) : l.head? = some backTick := by
  match l with
  | [] => simp [stripPF] at h
  | [c] =>
    simp only [stripPF] at h
    rw [if_neg (by simp)] at h
    simpa using h
  | [c, d] =>
    simp only [stripPF] at h
    rw [if_neg (by simp)] at h
    simpa using h
  | c0 :: c1 :: c2 :: rest =>
    simp only [stripPF] at h
    rw [if_neg (by simp)] at h
    split_ifs at h with hf
    · simp [hf.1]
    · simpa using h

theorem stripPF_pair (l : List Char)
    (h : pairAtHead (stripPF false l) = true) : pairAtHead l = true := by
  match l with
  | [] => simp [stripPF, pairAtHead] at h
  | [c] =>
    simp only [stripPF] at h
    rw [if_neg (by simp)] at h
    simp [pairAtHead] at h
  | [c, d] =>
    simp only [stripPF] at h
    rw [if_neg (by simp)] at h
    rw [if_neg (by simp)] at h
    exact h
  | c0 :: c1 :: c2 :: rest =>
    simp only [stripPF] at h
    rw [if_neg (by simp)] at h
    split_ifs at h with hf
    · simp [pairAtHead, hf.1, hf.2.1]
    · rcases hout : stripPF false (c1 :: c2 :: rest) with _ | ⟨x, out2⟩
      · rw [hout] at h
        simp [pairAtHead] at h
      · rw [hout] at h
        simp only [pairAtHead, Bool.and_eq_true, beq_iff_eq] at h
        have hx : (stripPF false (c1 :: c2 :: rest)).head? = some backTick := by
          rw [hout, h.2]
          rfl
        have hc1 := stripPF_head_bt _ hx
        simp only [List.head?_cons, Option.some.injEq] at hc1
        simp [pairAtHead, h.1, hc1]

theorem hasTriple_stripPF :
    ∀ (n : Nat) (l : List Char), l.length ≤ n → ∀ m : Bool,
      hasTriple (stripPF m l) = false := by
  intro n
  induction n with
  | zero =>
    intro l hl m
    have hnil : l = [] := List.eq_nil_of_length_eq_zero (Nat.le_zero.1 hl)
    subst hnil
    simp [stripPF, hasTriple]
  | succ n ih =>
    intro l hl m
    match l with
    | [] => simp [stripPF, hasTriple]
    | [c] =>
      simp only [stripPF]
      split_ifs <;> simp [stripPF, hasTriple]
    | [c, d] =>
      simp only [stripPF]
      split_ifs <;> simp [stripPF, hasTriple]
    | c0 :: c1 :: c2 :: rest =>
      simp only [stripPF]
      split_ifs with h1 h2
      · exact ih (c1 :: c2 :: rest) (by simp at hl ⊢; omega) true
      · exact ih rest (by simp at hl ⊢; omega) true
      · have hout : hasTriple (stripPF false (c1 :: c2 :: rest)) = false :=
          ih _ (by simp at hl ⊢; omega) false
        have htrip : tripleAtHead (c0 :: stripPF false (c1 :: c2 :: rest)) = false := by
          rw [tripleAtHead_cons]
          by_cases hc0 : (c0 == backTick) = true
          · by_cases hp : pairAtHead (stripPF false (c1 :: c2 :: rest)) = true
            · have hp2 := stripPF_pair _ hp
              simp only [pairAtHead, Bool.and_eq_true, beq_iff_eq] at hp2
              exact absurd ⟨by simpa using hc0, hp2.1, hp2.2⟩ h2
            · rw [Bool.not_eq_true] at hp
              simp [hp]
          · rw [Bool.not_eq_true] at hc0
            simp [hc0]
        rw [hasTriple_cons, htrip, hout]
        rfl

theorem stripPF_id (l : List Char) (h : hasTriple l = false) :
    stripPF false l = l := by
  induction l with
  | nil => rfl
  | cons c tail ih =>
    rw [hasTriple_cons, Bool.or_eq_false_iff] at h
    obtain ⟨htrip, htail⟩ := h
    rcases tail with _ | ⟨c1, tail2⟩
    · simp [stripPF]
    · rcases tail2 with _ | ⟨c2, rest⟩
      · simp [stripPF]
      · simp only [stripPF]
        rw [if_neg (by simp)]
        rw [if_neg ?fence, ih htail]
        case fence =>
          intro hc
          apply absurd htrip
          simp [tripleAtHead, hc.1, hc.2.1, hc.2.2]

theorem stripSF_id (l : List Char) (h : hasTriple l = false) :
    stripSF false l = l := by
  induction l with
  | nil => rfl
  | cons c tail ih =>
    rw [hasTriple_cons, Bool.or_eq_false_iff] at h
    obtain ⟨htrip, htail⟩ := h
    rcases tail with _ | ⟨a1, t1⟩
    · simp [stripSF]
    · rcases t1 with _ | ⟨a2, t2⟩
      · simp [stripSF]
      · rcases t2 with _ | ⟨a3, t3⟩
        · simp [stripSF]
        · rcases t3 with _ | ⟨a4, t4⟩
          · simp [stripSF]
          · rcases t4 with _ | ⟨a5, t5⟩
            · simp [stripSF]
            · simp only [stripSF]
              rw [if_neg (by simp)]
              rw [if_neg ?fence, ih htail]
              case fence =>
                intro hc
                apply absurd htrip
                simp [tripleAtHead, hc.1, hc.2.1, hc.2.2.1]

theorem dropWhile_front (p : Char → Bool) (l : List Char) :
    ∃ w, l = w ++ l.dropWhile p := by
  obtain ⟨w, hw⟩ := List.dropWhile_suffix (l := l) p
  exact ⟨w, hw.symm⟩

theorem trim_decomp (l : List Char) :
    ∃ u v, l = u ++ trimChars l ++ v := by
  obtain ⟨u, hu⟩ := dropWhile_front isWS l
  obtain ⟨v, hv⟩ := trimR_front (trimL l)
  refine ⟨u, v, ?_⟩
  rw [List.append_assoc]
  rw [show trimChars l ++ v = trimL l from hv.symm]
  exact hu

theorem splitNL_head_front (l : List Char) :
    ∃ l0 ls b, splitNL l = l0 :: ls ∧ l = l0 ++ b := by
  induction l with
  | nil => exact ⟨[], [], [], rfl, rfl⟩
  | cons c rest ih =>
    obtain ⟨r0, rs, b, hsplit, hdecomp⟩ := ih
    by_cases hc : c = '\n'
    · subst hc
      exact ⟨[], splitNL rest, '\n' :: rest, rfl, rfl⟩
    · refine ⟨c :: r0, rs, b, ?_, by rw [List.cons_append, ← hdecomp]⟩
      rw [splitNL.eq_def]
      split
      next heq => simp at heq
      next rest2 heq =>
        rw [List.cons.injEq] at heq
        exact absurd heq.1 hc
      next c2 rest2 heq =>
        rw [List.cons.injEq] at heq
        obtain ⟨h1, h2⟩ := heq
        subst h1
        subst h2
        rw [hsplit]

theorem splitNL_decomp (l : List Char) :
    ∀ x ∈ splitNL l, ∃ u v, l = u ++ x ++ v := by
  induction l with
  | nil =>
    intro x hx
    simp only [splitNL, List.mem_singleton] at hx
    exact ⟨[], [], by simp [hx]⟩
  | cons c rest ih =>
    intro x hx
    by_cases hc : c = '\n'
    · subst hc
      simp only [splitNL, List.mem_cons] at hx
      rcases hx with hx | hx
      · exact ⟨[], '\n' :: rest, by simp [hx]⟩
      · obtain ⟨u, v, huv⟩ := ih x hx
        exact ⟨'\n' :: u, v, by rw [huv]; rfl⟩
    · obtain ⟨r0, rs, b, hsplit, hdecomp⟩ := splitNL_head_front rest
      have hform : splitNL (c :: rest) = (c :: r0) :: rs := by
        rw [splitNL.eq_def]
        split
        next heq => simp at heq
        next rest2 heq =>
          rw [List.cons.injEq] at heq
          exact absurd heq.1 hc
        next c2 rest2 heq =>
          rw [List.cons.injEq] at heq
          obtain ⟨h1, h2⟩ := heq
          subst h1
          subst h2
          rw [hsplit]
      rw [hform, List.mem_cons] at hx
      rcases hx with hx | hx
      · exact ⟨[], b, by rw [hx, hdecomp]; rfl⟩
      · have hx2 : x ∈ splitNL rest := by rw [hsplit]; exact List.mem_cons_of_mem _ hx
        obtain ⟨u, v, huv⟩ := ih x hx2
        exact ⟨c :: u, v, by rw [huv]; rfl⟩

theorem splitNL_no_nl (l : List Char) : ∀ x ∈ splitNL l, '\n' ∉ x := by
  induction l with
  | nil =>
    intro x hx
    simp only [splitNL, List.mem_singleton] at hx
    simp [hx]
  | cons c rest ih =>
    intro x hx
    by_cases hc : c = '\n'
    · subst hc
      simp only [splitNL, List.mem_cons] at hx
      rcases hx with hx | hx
      · simp [hx]
      · exact ih x hx
    · obtain ⟨r0, rs, b, hsplit, _⟩ := splitNL_head_front rest
      have hform : splitNL (c :: rest) = (c :: r0) :: rs := by
        rw [splitNL.eq_def]
        split
        next heq => simp at heq
        next rest2 heq =>
          rw [List.cons.injEq] at heq
          exact absurd heq.1 hc
        next c2 rest2 heq =>
          rw [List.cons.injEq] at heq
          obtain ⟨h1, h2⟩ := heq
          subst h1
          subst h2
          rw [hsplit]
      rw [hform, List.mem_cons] at hx
      rcases hx with hx | hx
      · have hr0 : '\n' ∉ r0 := by
          have : r0 ∈ splitNL rest := by rw [hsplit]; exact List.mem_cons_self _ _
          exact ih r0 this
        rw [hx]
        intro hmem
        rcases List.mem_cons.1 hmem with h1 | h1
        · exact hc h1.symm
        · exact hr0 h1
      · exact ih x (by rw [hsplit]; exact List.mem_cons_of_mem _ hx)

theorem splitNL_of_no_nl (l : List Char) (h : '\n' ∉ l) : splitNL l = [l] := by
  induction l with
  | nil => rfl
  | cons c rest ih =>
    have hc : c ≠ '\n' := fun hx => h (by rw [hx]; exact List.mem_cons_self _ _)
    have hrest : '\n' ∉ rest := fun hx => h (List.mem_cons_of_mem _ hx)
    rw [splitNL.eq_def]
    split
    next heq => simp at heq
    next rest2 heq =>
      rw [List.cons.injEq] at heq
      exact absurd heq.1 hc
    next c2 rest2 heq =>
      rw [List.cons.injEq] at heq
      obtain ⟨h1, h2⟩ := heq
      subst h1
      subst h2
      rw [ih hrest]

theorem joinNL_splitNL (l : List Char) : joinNL (splitNL l) = l := by
  induction l with
  | nil => rfl
  | cons c rest ih =>
    by_cases hc : c = '\n'
    · subst hc
      show joinNL ([] :: splitNL rest) = '\n' :: rest
      obtain ⟨r0, rs, b, hsplit, _⟩ := splitNL_head_front rest
      rw [hsplit]
      rw [hsplit] at ih
      show [] ++ '\n' :: joinNL (r0 :: rs) = '\n' :: rest
      rw [List.nil_append, ih]
    · obtain ⟨r0, rs, b, hsplit, _⟩ := splitNL_head_front rest
      have hform : splitNL (c :: rest) = (c :: r0) :: rs := by
        rw [splitNL.eq_def]
        split
        next heq => simp at heq
        next rest2 heq =>
          rw [List.cons.injEq] at heq
          exact absurd heq.1 hc
        next c2 rest2 heq =>
          rw [List.cons.injEq] at heq
          obtain ⟨h1, h2⟩ := heq
          subst h1
          subst h2
          rw [hsplit]
      rw [hform]
      rw [hsplit] at ih
      rcases rs with _ | ⟨s1, rs2⟩
      · show (c :: r0) = c :: rest
        have : joinNL [r0] = rest := ih
        simp only [joinNL] at this
        rw [this]
      · show (c :: r0) ++ '\n' :: joinNL (s1 :: rs2) = c :: rest
        have : r0 ++ '\n' :: joinNL (s1 :: rs2) = rest := ih
        rw [List.cons_append, this]

theorem cleanLoop_subset : ∀ (m : Bool) (ls : List (List Char)) (x : List Char),
    x ∈ cleanLoop m ls → x ∈ ls := by
  intro m ls
  induction ls generalizing m with
  | nil => intro x hx; simp [cleanLoop] at hx
  | cons line rest ih =>
    intro x hx
    simp only [cleanLoop] at hx
    split_ifs at hx <;>
      first
        | exact List.mem_cons_of_mem _ (ih _ x hx)
        | (rcases List.mem_cons.1 hx with h | h
           · exact h ▸ List.mem_cons_self _ _
           · exact List.mem_cons_of_mem _ (ih _ x h))

theorem cleanLoop_true_id : ∀ ls : List (List Char), cleanLoop true ls = ls := by
  intro ls
  induction ls with
  | nil => rfl
  | cons line rest ih =>
    simp only [cleanLoop]
    rw [if_neg (by simp)]
    rw [if_pos (by simp)]
    rw [ih]

theorem cleanLoop_first (ls : List (List Char)) :
    cleanLoop false ls = [] ∨
      ∃ k ks, cleanLoop false ls = k :: ks ∧
        startsWithKeywordOrDashes (trimChars k) = true := by
  induction ls with
  | nil => exact Or.inl rfl
  | cons line rest ih =>
    simp only [cleanLoop]
    by_cases ht : trimChars line = []
    · rw [if_pos ⟨by trivial, ht⟩]
      exact ih
    · rw [if_neg (fun hc => ht hc.2)]
      by_cases hen : (startsWithKeyword (trimChars line) ||
          startsWithDashes (trimChars line) || false) = true
      · rw [if_pos hen]
        refine Or.inr ⟨line, cleanLoop true rest, rfl, ?_⟩
        simp only [Bool.or_false] at hen
        simpa [startsWithKeywordOrDashes] using hen
      · rw [if_neg hen]
        rw [if_neg (by simp)]
        rw [ite_self]
        exact ih

theorem joinNL_triple : ∀ ls : List (List Char), (∀ x ∈ ls, '\n' ∉ x) →
    hasTriple (joinNL ls) = true → ∃ x ∈ ls, hasTriple x = true := by
  intro ls
  induction ls with
  | nil => intro _ h; simp [joinNL, hasTriple] at h
  | cons l rest ih =>
    intro hnl h
    rcases rest with _ | ⟨l2, rest2⟩
    · exact ⟨l, List.mem_cons_self _ _, h⟩
    · have hjoin : joinNL (l :: l2 :: rest2) = l ++ '\n' :: joinNL (l2 :: rest2) := rfl
      rw [hjoin] at h
      have hnlbt : ('\n' : Char) ≠ backTick := by decide
      rcases hasTriple_split '\n' hnlbt l (joinNL (l2 :: rest2)) h with h2 | h2
      · exact ⟨l, List.mem_cons_self _ _, h2⟩
      · obtain ⟨x, hx, hx2⟩ := ih (fun y hy => hnl y (List.mem_cons_of_mem _ hy)) h2
        exact ⟨x, List.mem_cons_of_mem _ hx, hx2⟩

theorem trimR_append_cases (a b : List Char) :
    trimR (a ++ b) = if trimR b = [] then trimR a else a ++ trimR b := by
  by_cases hb : trimR b = []
  · rw [if_pos hb]
    have hb2 : b.reverse.dropWhile isWS = [] := by
      have := congrArg List.reverse hb
      rw [trimR, List.reverse_reverse] at this
      simpa using this
    rw [trimR, List.reverse_append, List.dropWhile_append, hb2]
    simp [trimR]
  · rw [if_neg hb]
    have hb2 : b.reverse.dropWhile isWS ≠ [] := by
      intro he
      apply hb
      rw [trimR, he]
      rfl
    rw [trimR, List.reverse_append, List.dropWhile_append,
      if_neg (by simpa [List.isEmpty_iff] using hb2)]
    rw [List.reverse_append, List.reverse_reverse]
    rfl

theorem splitNL_append_nl (a x : List Char) (h : '\n' ∉ a) :
    splitNL (a ++ '\n' :: x) = a :: splitNL x := by
  induction a with
  | nil => rfl
  | cons c a2 ih =>
    have hc : c ≠ '\n' := fun hx => h (by rw [hx]; exact List.mem_cons_self _ _)
    have ha2 : '\n' ∉ a2 := fun hx => h (List.mem_cons_of_mem _ hx)
    rw [List.cons_append, splitNL.eq_def]
    split
    next heq => simp at heq
    next rest2 heq =>
      rw [List.cons.injEq] at heq
      exact absurd heq.1 hc
    next c2 rest2 heq =>
      rw [List.cons.injEq] at heq
      obtain ⟨h1, h2⟩ := heq
      subst h1
      subst h2
      rw [ih ha2]

/-- No backtick triple survives the sanitizer: the second fence-removal
pass eats every occurrence, and line selection, joining and trimming
cannot create one. -/
theorem cleanGeneratedDatabase_noTriple (s : List Char) :
    hasTriple (cleanGeneratedDatabase s) = false := by
  by_contra hcontra
  rw [Bool.not_eq_false] at hcontra
  have hform : cleanGeneratedDatabase s =
      trimChars (joinNL (cleanLoop false
        (splitNL (trimChars (stripPF false (stripSF false s)))))) := rfl
  rw [hform] at hcontra
  obtain ⟨u, v, huv⟩ := trim_decomp (joinNL (cleanLoop false
    (splitNL (trimChars (stripPF false (stripSF false s))))))
  have hjoin : hasTriple (joinNL (cleanLoop false
      (splitNL (trimChars (stripPF false (stripSF false s)))))) = true := by
    rw [huv]
    exact hasTriple_mono _ _ _ hcontra
  have hnl : ∀ x ∈ cleanLoop false
      (splitNL (trimChars (stripPF false (stripSF false s)))), '\n' ∉ x :=
    fun x hx =>
      splitNL_no_nl _ x (cleanLoop_subset false _ x hx)
  obtain ⟨x, hx, hxt⟩ := joinNL_triple _ hnl hjoin
  obtain ⟨u2, v2, huv2⟩ := splitNL_decomp _ x (cleanLoop_subset false _ x hx)
  have hcl : hasTriple (trimChars (stripPF false (stripSF false s))) = true := by
    rw [huv2]
    exact hasTriple_mono _ _ _ hxt
  obtain ⟨u3, v3, huv3⟩ := trim_decomp (stripPF false (stripSF false s))
  have hs2t : hasTriple (stripPF false (stripSF false s)) = true := by
    rw [huv3]
    exact hasTriple_mono _ _ _ hcl
  have hfalse := hasTriple_stripPF (stripSF false s).length (stripSF false s)
    le_rfl false
  rw [hfalse] at hs2t
  exact absurd hs2t (by simp)

/-- The sanitizer's output is empty or its first line enters the SQL
region again. -/
theorem clean_first_line (s : List Char) :
    cleanGeneratedDatabase s = [] ∨
      ∃ h hs, splitNL (cleanGeneratedDatabase s) = h :: hs ∧
        startsWithKeywordOrDashes (trimChars h) = true := by
  rcases cleanLoop_first
      (splitNL (trimChars (stripPF false (stripSF false s)))) with
    hnil | ⟨k, ks, hform, hentry⟩
  · left
    show trimChars (joinNL (cleanLoop false _)) = []
    rw [hnil]
    rfl
  · have hkne : trimChars k ≠ [] := by
      intro he
      rw [he] at hentry
      exact absurd hentry (by decide)
    have hknl : '\n' ∉ k :=
      splitNL_no_nl _ k (cleanLoop_subset false _ k
        (by rw [hform]; exact List.mem_cons_self _ _))
    have htknl : '\n' ∉ trimChars k := by
      obtain ⟨u, v, huv⟩ := trim_decomp k
      intro hmem
      exact hknl (by rw [huv]; simp [hmem])
    have hAnl : '\n' ∉ trimL k := by
      obtain ⟨w, hw⟩ := dropWhile_front isWS k
      intro hmem
      exact hknl (by rw [hw]; exact List.mem_append.2 (Or.inr hmem))
    have hAne : trimL k ≠ [] := by
      intro he
      apply hkne
      show trimR (trimL k) = []
      rw [he]
      rfl
    have hr : cleanGeneratedDatabase s = trimChars (joinNL (k :: ks)) := by
      show trimChars (joinNL (cleanLoop false _)) = _
      rw [hform]
    have htidem : trimChars (trimL k) = trimChars k := by
      rw [trimChars, trimChars, trimL_idem]
    rcases ks with _ | ⟨k2, ks2⟩
    · have hr2 : cleanGeneratedDatabase s = trimChars k := hr
      right
      refine ⟨trimChars k, [], ?_, ?_⟩
      · rw [hr2, splitNL_of_no_nl _ htknl]
      · rw [trimChars_idem]
        exact hentry
    · have hr2 : cleanGeneratedDatabase s =
          trimR (trimL k ++ '\n' :: joinNL (k2 :: ks2)) := by
        rw [hr]
        show trimR (trimL (k ++ '\n' :: joinNL (k2 :: ks2))) = _
        rw [show k ++ '\n' :: joinNL (k2 :: ks2) =
          k ++ ('\n' :: joinNL (k2 :: ks2)) from rfl]
        have hAne2 : List.dropWhile isWS k ≠ [] := hAne
        rw [trimL, List.dropWhile_append,
          if_neg (by simpa [List.isEmpty_iff] using hAne2)]
        rfl
      by_cases hB : trimR ('\n' :: joinNL (k2 :: ks2)) = []
      · have hr3 : cleanGeneratedDatabase s = trimChars k := by
          rw [hr2, trimR_append_cases, if_pos hB]
          rfl
        right
        refine ⟨trimChars k, [], ?_, ?_⟩
        · rw [hr3, splitNL_of_no_nl _ htknl]
        · rw [trimChars_idem]
          exact hentry
      · have hJne : trimR (joinNL (k2 :: ks2)) ≠ [] := by
          intro he
          apply hB
          rw [show ('\n' :: joinNL (k2 :: ks2)) =
            ['\n'] ++ joinNL (k2 :: ks2) from rfl]
          rw [trimR_append_cases, if_pos he]
          decide
        have hsing : trimR ('\n' :: joinNL (k2 :: ks2)) =
            '\n' :: trimR (joinNL (k2 :: ks2)) := by
          rw [show ('\n' :: joinNL (k2 :: ks2)) =
            ['\n'] ++ joinNL (k2 :: ks2) from rfl]
          rw [trimR_append_cases, if_neg hJne]
          rfl
        have hr3 : cleanGeneratedDatabase s =
            trimL k ++ '\n' :: trimR (joinNL (k2 :: ks2)) := by
          rw [hr2, trimR_append_cases, if_neg hB, hsing]
        right
        refine ⟨trimL k, splitNL (trimR (joinNL (k2 :: ks2))), ?_, ?_⟩
        · rw [hr3]
          exact splitNL_append_nl (trimL k) _ hAnl
        · rw [htidem]
          exact hentry

/-- Claim C10 (confirmed): the schema sanitizer is idempotent — applying
`cleanGeneratedDatabase` to its own output returns it unchanged.  The
output has no fence marker left (no backtick triple survives pass two),
it is already trimmed, and its first line re-enters the SQL region at
once, so the second pass keeps every line. -/
theorem cleanGeneratedDatabase_idem (s : List Char) :
    cleanGeneratedDatabase (cleanGeneratedDatabase s) =
      cleanGeneratedDatabase s := by
  have hnt := cleanGeneratedDatabase_noTriple s
  have htrim : trimChars (cleanGeneratedDatabase s) = cleanGeneratedDatabase s := by
    show trimChars (trimChars (joinNL (cleanLoop false _))) = _
    rw [trimChars_idem]
    rfl
  rcases clean_first_line s with hnil | ⟨h, hs2, hsplit, hentry⟩
  · rw [hnil]
    decide
  · have h1 : stripSF false (cleanGeneratedDatabase s) = cleanGeneratedDatabase s :=
      stripSF_id _ hnt
    have h2 : stripPF false (cleanGeneratedDatabase s) = cleanGeneratedDatabase s :=
      stripPF_id _ hnt
    show trimChars (joinNL (cleanLoop false (splitNL (trimChars
      (stripPF false (stripSF false (cleanGeneratedDatabase s))))))) = _
    rw [h1, h2, htrim, hsplit]
    have hne : trimChars h ≠ [] := by
      intro he
      rw [he] at hentry
      exact absurd hentry (by decide)
    have hloop : cleanLoop false (h :: hs2) = h :: hs2 := by
      simp only [cleanLoop]
      rw [if_neg (fun hc => hne hc.2)]
      rw [if_pos (by
        simp only [startsWithKeywordOrDashes] at hentry
        simp [hentry])]
      rw [cleanLoop_true_id]
    rw [hloop, ← hsplit, joinNL_splitNL, htrim]

end SqlApp
